import Mathlib

/-!
Verification development for the free-outernet receiver.

This file gives a shallow embedding, in Lean 4, of the reception and
reassembly pipeline of the free-outernet repository:

* "protocols.py": the OP (L3) fragment packets, the OP defragmenter with
  its per-carousel partial datagrams, and the LDP (L4) datagram parser
  with its CRC-32/MPEG-2 check;
* "files.py": the file service (announcements, data blocks, FEC blocks,
  reconstruction with LDPC repair, SHA-256 verification) and the LDPC
  parity-check matrix builder with its Park-Miller PRNG.

Byte strings are modelled as "List Nat" with every element below 256
(stated as a hypothesis where it matters).  Python exceptions are made
explicit: an operation that can raise returns an "Except PyErr" value,
and stateful operations return the mutated state together with the
outcome, so that mutations performed before a raise are visible, exactly
as they are in Python.  Unbounded "while" loops are given an explicit
fuel argument; exhausting the fuel models non-termination and is
reported as the distinguished outcome "PyErr.outOfFuel".

External libraries are embedded from their documented semantics: the
CRC-32/MPEG-2 of crcmod (polynomial 0x04C11DB7, initial value
0xFFFFFFFF, no reflection, no final xor), the SHA-256 of hashlib
(FIPS 180-4), and the XML element tree of xml.etree (modelled at the
level of parsed element trees).
-/

/-- Python exception kinds that the embedded code can raise. -/
inductive PyErr where
  | valueError        -- ValueError (also the LDP/OP malformed-packet errors)
  | typeError         -- TypeError (for example "None" used as a number or path)
  | indexError        -- IndexError (list index out of range)
  | keyError          -- KeyError (missing dictionary key)
  | attributeError    -- AttributeError ("None.text" on a missing XML child)
  | zeroDivision      -- ZeroDivisionError
  | structError       -- struct.error (unpack of a too-short buffer)
  | xmlParseError     -- xml.etree.ElementTree.ParseError
  | zfecError         -- errors raised inside the external zfec decoder
  | outOfFuel         -- marker for a loop that exceeds its fuel (non-termination)
  deriving Repr, DecidableEq

/-- Distinct error values raised by "LDP.__init__" (all are ValueError in
Python; we keep the three messages apart). -/
inductive LdpErr where
  | tooShort       -- "Malformed LDP packet: too short"
  | badLength      -- "Malformed LDP packet: invalid length"
  | badChecksum    -- "Malformed LDP packet: invalid checksum"
  deriving Repr, DecidableEq

/-! ## Python-semantics helpers -/

/-- Truthiness of an optional byte string: Python "not x" is true for
"None" and for the empty bytes object. -/
def pyFalsyBytes : Option (List Nat) → Bool
  | none => true
  | some [] => true
  | some (_ :: _) => false

/-- Truthiness of an optional integer: Python "not x" is true for "None"
and for 0. -/
def pyFalsyNat : Option Nat → Bool
  | none => true
  | some 0 => true
  | some (_ + 1) => false

/-- Truthiness of an optional Python int (signed). -/
def pyFalsyInt : Option Int → Bool
  | none => true
  | some n => n == 0

/-- Truthiness of an optional string: Python "if x" is false for "None"
and for the empty string. -/
def pyTruthyStr : Option String → Bool
  | none => false
  | some s => !(s == "")

/-- Python slice "l[a:b]" with step 1: negative indices count from the
end (once), and the bounds are clamped to the list. -/
def pySlice (l : List Nat) (a b : Int) : List Nat :=
  let n : Int := l.length
  let lo := if a < 0 then a + n else a
  let hi := if b < 0 then b + n else b
  (l.take hi.toNat).drop lo.toNat

/-- Python slice "l[a:]" from an index. -/
def pySliceFrom (l : List Nat) (a : Int) : List Nat :=
  pySlice l a l.length

/-- Python slice "l[:b]" up to an index. -/
def pySliceTo (l : List Nat) (b : Int) : List Nat :=
  pySlice l 0 b

/-- Python "bytes" repetition "b * k": a negative count yields the empty
byte string. -/
def pyRepeat (b : Nat) (k : Int) : List Nat :=
  List.replicate k.toNat b

/-- Big-endian 16-bit read of the first two bytes (struct.unpack of the
format string with H). -/
def be2 (l : List Nat) : Nat :=
  l.getD 0 0 * 0x100 + l.getD 1 0

/-- Big-endian 32-bit read of the first four bytes (struct.unpack of the
format string with L or I). -/
def be4 (l : List Nat) : Nat :=
  l.getD 0 0 * 0x1000000 + l.getD 1 0 * 0x10000 + l.getD 2 0 * 0x100 + l.getD 3 0

/-- Big-endian 4-byte encoding of a 32-bit value. -/
def be4Bytes (w : Nat) : List Nat :=
  [w / 0x1000000 % 0x100, w / 0x10000 % 0x100, w / 0x100 % 0x100, w % 0x100]

/-- Big-endian 2-byte encoding of a 16-bit value. -/
def be2Bytes (w : Nat) : List Nat :=
  [w / 0x100 % 0x100, w % 0x100]

/-- Python int() of a string: strip surrounding whitespace, allow an
optional sign, then decimal digits; anything else raises ValueError.
(Underscore separators accepted by CPython are not modelled.) -/
def pyIntOfChars : List Char → Except PyErr Int
  | [] => .error .valueError
  | cs =>
    if cs.all Char.isDigit then
      .ok (cs.foldl (fun acc c => acc * 10 + (c.toNat - 48)) (0 : Int))
    else .error .valueError

/-- Strip leading and trailing whitespace from a character list (the
whitespace stripping performed by Python int() on its argument). -/
def pyStripChars (cs : List Char) : List Char :=
  ((cs.dropWhile Char.isWhitespace).reverse.dropWhile Char.isWhitespace).reverse

/-- Python int() of a string (see pyIntOfChars). -/
def pyInt (s : String) : Except PyErr Int :=
  match pyStripChars s.toList with
  | '+' :: rest => pyIntOfChars rest
  | '-' :: rest => (pyIntOfChars rest).map Int.neg
  | rest => pyIntOfChars rest

/-- Python math.ceil of an integer quotient a / b (the source computes it
through float division; we model the exact value). -/
def pyCeilDiv (a b : Int) : Int :=
  -((-a).fdiv b)

/-! ## CRC-32/MPEG-2 (crcmod's crc-32-mpeg)

Embedded from its documented parameters: polynomial 0x04C11DB7, initial
value 0xFFFFFFFF, no input or output reflection, no final xor.  The
bitwise MSB-first formulation below is the standard definition of that
parameter set. -/

/-- The CRC-32 polynomial, MSB-first representation. -/
def crcPoly : Nat := 0x04C11DB7

/-- One bit step of the MSB-first CRC: shift left, and xor the
polynomial when the bit shifted out was set.  States stay below 2^32. -/
def crcStep (s : Nat) : Nat :=
  if s < 0x80000000 then 2 * s % 0x100000000
  else (2 * s % 0x100000000) ^^^ crcPoly

/-- Eight bit steps. -/
def crcStep8 (s : Nat) : Nat :=
  crcStep (crcStep (crcStep (crcStep (crcStep (crcStep (crcStep (crcStep s)))))))

/-- Process one byte: xor it into the top byte of the state, then run
eight bit steps. -/
def crcByteUpd (s b : Nat) : Nat :=
  crcStep8 (s ^^^ b * 0x1000000)

/-- CRC-32/MPEG-2 of a byte string: fold from the initial value
0xFFFFFFFF with no final xor. -/
def crc32mpeg (data : List Nat) : Nat :=
  data.foldl crcByteUpd 0xFFFFFFFF

/-- Big-endian bytes of a CRC state; appending them to the message
drives the CRC residue to zero. -/
def crcTrailer (s : Nat) : List Nat :=
  [s / 0x1000000 % 0x100, s / 0x10000 % 0x100, s / 0x100 % 0x100, s % 0x100]

/-! ## LDP parsing (protocols.py, class LDP) -/

/-- Embedding of "LDP.__init__" (protocols.py lines 194-217): parse a
byte string into (type, payload) or raise ValueError.  The header is a
big-endian 32-bit word: type in the top 8 bits, length in the low
24 bits; the CRC is checked over the first "length" bytes, expecting
residue zero; the payload is "data[4 : length - 4]". -/
def ldpParse (data : List Nat) : Except LdpErr (Nat × List Nat) :=
  if data.length < 8 then .error .tooShort
  else
    let header := be4 (data.take 4)
    let ty := header / 0x1000000
    let len := header % 0x1000000
    if len > data.length then .error .badLength
    else if crc32mpeg (data.take len) ≠ 0 then .error .badChecksum
    else .ok (ty, pySlice data 4 ((len : Int) - 4))

/-- Construction of an LDP datagram as described by the specification:
the big-endian 32-bit header packing (t, length = len(s) + 8), then the
payload, then the 4-byte CRC trailer chosen so that the CRC residue over
the whole datagram is zero. -/
def mkDatagram (t : Nat) (s : List Nat) : List Nat :=
  let body := be4Bytes (t * 0x1000000 + (s.length + 8)) ++ s
  body ++ crcTrailer (crc32mpeg body)

/-- Flip bit k (0 ≤ k < 8) of byte j of a byte string. -/
def flipBit (data : List Nat) (j k : Nat) : List Nat :=
  data.set j (data.getD j 0 ^^^ 2 ^ k)

/-! ## OP packets and the defragmenter (protocols.py) -/

/-- An OP (L3) packet, as produced by "OP.__init__": the five header
byte fields and the payload slice. -/
structure OPPacket where
  length : Nat
  fragmentType : Nat
  carouselId : Nat
  lastFragment : Nat
  fragmentIndex : Nat
  payload : List Nat
  deriving Repr, DecidableEq

/-- State of a fragmented LDP packet (protocols.py, class PartialLDP).
The fragments dictionary is kept as an insertion-ordered association
list, mirroring a Python dict. -/
structure PartialLDP where
  fragments : List (Nat × List Nat)
  fragRecv : Nat
  fecRecv : Nat
  fragSize : Option Int
  fragCount : Option Nat
  fecCount : Option Nat
  nextIndex : Nat
  deriving Repr, DecidableEq

/-- Embedding of "PartialLDP.reset" / "PartialLDP.__init__": the blank
partial-datagram state. -/
def PartialLDP.fresh : PartialLDP :=
  { fragments := [], fragRecv := 0, fecRecv := 0,
    fragSize := none, fragCount := none, fecCount := none, nextIndex := 0 }

/-- Membership test of the fragments dictionary. -/
def PartialLDP.hasKey (p : PartialLDP) (k : Nat) : Bool :=
  p.fragments.any (·.1 == k)

/-- Lookup in the fragments dictionary (KeyError is a "none"). -/
def fragLookup (l : List (Nat × List Nat)) (k : Nat) : Option (List Nat) :=
  (l.find? (·.1 == k)).map (·.2)

/-- Embedding of "PartialLDP.push_data". -/
def PartialLDP.pushData (p : PartialLDP) (index : Nat) (payload : List Nat) : PartialLDP :=
  if p.hasKey index then p
  else { p with fragments := p.fragments ++ [(index, payload)],
                fragRecv := p.fragRecv + 1 }

/-- Embedding of "PartialLDP.push_fec": ignored while frag_count is
falsy (None or 0); otherwise the FEC payload lands at index
frag_count + index. -/
def PartialLDP.pushFec (p : PartialLDP) (index : Nat) (payload : List Nat) : PartialLDP :=
  match p.fragCount with
  | none => p
  | some 0 => p
  | some k =>
    if p.hasKey (k + index) then p
    else { p with fragments := p.fragments ++ [(k + index, payload)],
                  fecRecv := p.fecRecv + 1 }

/-- Embedding of the "PartialLDP.complete" property: frag_count is
truthy and the number of received fragments (data plus FEC) reaches it. -/
def PartialLDP.complete (p : PartialLDP) : Bool :=
  match p.fragCount with
  | none => false
  | some 0 => false
  | some k => p.fecRecv + p.fragRecv ≥ k

/-- Model of the external zfec erasure decoder.
Modelled from the spec: the packet-level FEC decoder of the external
zfec library is out of scope of the repository; §4.2 of the
specification gives its contract ("systematic block erasure coding"
whose decode "returns exactly k recovered shares in canonical order").
When all received shares are data shares the contract determines the
result (the shares reordered canonically); the parity-recovery case is
the library's Reed-Solomon mathematics, which the specification does not
define, so this model returns the shares unchanged there.  No theorem
in this file depends on that branch. -/
def zfecDecode (k : Nat) (shares : List (List Nat)) (sharenums : List Nat) :
    List (List Nat) :=
  if sharenums.all (· < k) then
    (List.range k).map (fun i =>
      (((sharenums.zip shares).find? (·.1 == i)).map (·.2)).getD [])
  else shares

/-- Embedding of "PartialLDP.decode".  The first branch (no FEC needed)
joins the data fragments in index order; a missing index is Python's
KeyError.  Otherwise the zfec decoder is invoked; a share-count mismatch
prints an error and returns None. -/
def PartialLDP.decode (p : PartialLDP) : Except PyErr (Option (List Nat)) :=
  if p.fragCount = some p.fragRecv then
    match (List.range p.fragRecv).mapM (fragLookup p.fragments) with
    | none => .error .keyError
    | some parts => .ok (some parts.flatten)
  else
    match p.fragCount, p.fecCount with
    | none, _ => .error .typeError        -- k = None; None + ... raises
    | _, none => .error .typeError        -- fec_count = None
    | some k, some _ =>
      let sharenums := p.fragments.map (·.1)
      if sharenums.length ≠ k then .ok none
      else .ok (some (zfecDecode k (p.fragments.map (·.2)) sharenums).flatten)

/-- State of the defragmenter (protocols.py, class OPDefragmenter): the
carousel_id → PartialLDP dictionary. -/
structure DefragState where
  pending : Nat → Option PartialLDP

/-- The fresh defragmenter. -/
def DefragState.empty : DefragState := ⟨fun _ => none⟩

/-- Store the (possibly mutated) partial of one carousel back into the
dictionary; in Python the mutation happens in place through the alias
obtained from the dict. -/
def DefragState.store (st : DefragState) (cid : Nat) (p : PartialLDP) : DefragState :=
  ⟨fun c => if c = cid then some p else st.pending c⟩

/-- Core of "OPDefragmenter.push" (protocols.py lines 142-183), acting
on the partial of the packet's carousel.  Returns the outcome (a decoded
L4 payload, None, or a raised exception) together with the final value
of that partial; in Python the partial is mutated in place through the
alias obtained from the dict. -/
def defragPushCore (ldp0 : PartialLDP) (pk : OPPacket) :
    Except PyErr (Option (List Nat)) × PartialLDP :=
  if pk.fragmentType = 0x3c ∨ pk.fragmentType = 0xc3 then
    if pk.fragmentType = 0x3c ∧ pk.fragmentIndex = 0 then
      (.ok (some pk.payload), ldp0)
    else
      let ldp1 := if pk.fragmentIndex < ldp0.nextIndex then PartialLDP.fresh else ldp0
      let ldp2 := if pyFalsyInt ldp1.fragSize then
                    { ldp1 with fragSize := some ((pk.length : Int) - 4) } else ldp1
      let ldp3 := if pyFalsyNat ldp2.fragCount then
                    { ldp2 with fragCount := some (pk.lastFragment + 1) } else ldp2
      let ldp4 := { ldp3 with nextIndex := pk.fragmentIndex + 1 }
      let ldp5 := ldp4.pushData pk.fragmentIndex pk.payload
      if pk.fragmentType = 0x3c ∧ ldp5.complete then
        match ldp5.decode with
        | .error e => (.error e, ldp5)
        | .ok decoded => (.ok decoded, PartialLDP.fresh)
      else
        (.ok none, ldp5)
  else if pk.fragmentType = 0x69 then
    if pyFalsyInt ldp0.fragSize then
      (.ok none, ldp0)
    else
      let ldp1 := if pyFalsyNat ldp0.fecCount then
                    { ldp0 with fecCount := some (pk.lastFragment + 1) } else ldp0
      let ldp2 := ldp1.pushFec pk.fragmentIndex pk.payload
      if ldp2.complete then
        match ldp2.decode with
        | .error e => (.error e, ldp2)
        | .ok decoded => (.ok decoded, PartialLDP.fresh)
      else
        (.ok none, ldp2)
  else
    (.ok none, ldp0)    -- unsupported fragment type: log and drop

/-- Embedding of "OPDefragmenter.push": look the partial up (a
PartialLDP object is always truthy in Python, so a fresh one is created
exactly when the carousel id is absent), run the core on it, and store
the resulting partial back under the carousel id. -/
def defragPush (st : DefragState) (pk : OPPacket) :
    Except PyErr (Option (List Nat)) × DefragState :=
  let cid := pk.carouselId
  let ldp0 := (st.pending cid).getD PartialLDP.fresh
  let (out, ldp1) := defragPushCore ldp0 pk
  (out, st.store cid ldp1)

/-- Push a list of packets in order, collecting the outcome of each
push. -/
def defragPushSeq (st : DefragState) :
    List OPPacket → List (Except PyErr (Option (List Nat))) × DefragState
  | [] => ([], st)
  | p :: ps =>
    let (o, st1) := defragPush st p
    let (os, st2) := defragPushSeq st1 ps
    (o :: os, st2)

/-! ## SHA-256 (hashlib.sha256)

Embedded from FIPS 180-4, which is the documented semantics of
hashlib.sha256.  Words are naturals kept below 2^32 by explicit
reduction. -/

/-- Right rotation of a 32-bit word by n bits (0 < n < 32). -/
def rotr32 (n x : Nat) : Nat :=
  x / 2 ^ n + x % 2 ^ n * 2 ^ (32 - n)

/-- The SHA-256 Ch function; 32-bit complement is xor with the all-ones
word. -/
def shaCh (x y z : Nat) : Nat :=
  (x &&& y) ^^^ ((x ^^^ 0xffffffff) &&& z)

/-- The SHA-256 Maj function. -/
def shaMaj (x y z : Nat) : Nat :=
  (x &&& y) ^^^ (x &&& z) ^^^ (y &&& z)

/-- The SHA-256 big sigma-0 function. -/
def shaBigSig0 (x : Nat) : Nat := rotr32 2 x ^^^ rotr32 13 x ^^^ rotr32 22 x

/-- The SHA-256 big sigma-1 function. -/
def shaBigSig1 (x : Nat) : Nat := rotr32 6 x ^^^ rotr32 11 x ^^^ rotr32 25 x

/-- The SHA-256 small sigma-0 function. -/
def shaSmallSig0 (x : Nat) : Nat := rotr32 7 x ^^^ rotr32 18 x ^^^ x / 2 ^ 3

/-- The SHA-256 small sigma-1 function. -/
def shaSmallSig1 (x : Nat) : Nat := rotr32 17 x ^^^ rotr32 19 x ^^^ x / 2 ^ 10

/-- The SHA-256 round constants. -/
def shaK : List Nat :=
  [1116352408, 1899447441, 3049323471, 3921009573,
   961987163, 1508970993, 2453635748, 2870763221,
   3624381080, 310598401, 607225278, 1426881987,
   1925078388, 2162078206, 2614888103, 3248222580,
   3835390401, 4022224774, 264347078, 604807628,
   770255983, 1249150122, 1555081692, 1996064986,
   2554220882, 2821834349, 2952996808, 3210313671,
   3336571891, 3584528711, 113926993, 338241895,
   666307205, 773529912, 1294757372, 1396182291,
   1695183700, 1986661051, 2177026350, 2456956037,
   2730485921, 2820302411, 3259730800, 3345764771,
   3516065817, 3600352804, 4094571909, 275423344,
   430227734, 506948616, 659060556, 883997877,
   958139571, 1322822218, 1537002063, 1747873779,
   1955562222, 2024104815, 2227730452, 2361852424,
   2428436474, 2756734187, 3204031479, 3329325298]

/-- The SHA-256 initial hash value. -/
def shaH0 : List Nat :=
  [1779033703, 3144134277, 1013904242, 2773480762,
   1359893119, 2600822924, 528734635, 1541459225]

/-- SHA-256 message padding: append 0x80, zeros to 56 mod 64, then the
message length in bits as a big-endian 64-bit value. -/
def shaPad (msg : List Nat) : List Nat :=
  let zeros := (119 - msg.length % 64) % 64
  let bitLen := 8 * msg.length
  msg ++ 0x80 :: List.replicate zeros 0 ++
    [bitLen / 2 ^ 56 % 256, bitLen / 2 ^ 48 % 256, bitLen / 2 ^ 40 % 256,
     bitLen / 2 ^ 32 % 256, bitLen / 2 ^ 24 % 256, bitLen / 2 ^ 16 % 256,
     bitLen / 2 ^ 8 % 256, bitLen % 256]

/-- Take 64-byte chunks n times (structural helper for shaChunks). -/
def shaChunksAux : Nat → List Nat → List (List Nat)
  | 0, _ => []
  | n + 1, l => l.take 64 :: shaChunksAux n (l.drop 64)

/-- Split a byte string into 64-byte chunks (the padded message length
is a multiple of 64, so ceil(length / 64) rounds cover it exactly). -/
def shaChunks (l : List Nat) : List (List Nat) :=
  shaChunksAux ((l.length + 63) / 64) l

/-- Append one schedule word (structural helper for shaExtend). -/
def shaExtendStep (w : List Nat) : List Nat :=
  let n := w.length
  w ++ [(shaSmallSig1 (w.getD (n - 2) 0) + w.getD (n - 7) 0 +
         shaSmallSig0 (w.getD (n - 15) 0) + w.getD (n - 16) 0) % 2 ^ 32]

/-- Iterate the schedule extension n times. -/
def shaExtendAux : Nat → List Nat → List Nat
  | 0, w => w
  | n + 1, w => shaExtendAux n (shaExtendStep w)

/-- Extend the sixteen message words of a chunk to sixty-four schedule
words (the loop appends one word while the length is below 64, hence
exactly 64 − length times). -/
def shaExtend (w : List Nat) : List Nat :=
  shaExtendAux (64 - w.length) w

/-- Working state of the SHA-256 compression function. -/
structure ShaState where
  a : Nat
  b : Nat
  c : Nat
  d : Nat
  e : Nat
  f : Nat
  g : Nat
  h : Nat
  deriving Repr, DecidableEq

/-- One round of the SHA-256 compression function. -/
def shaRound (s : ShaState) (kw : Nat × Nat) : ShaState :=
  let t1 := (s.h + shaBigSig1 s.e + shaCh s.e s.f s.g + kw.1 + kw.2) % 2 ^ 32
  let t2 := (shaBigSig0 s.a + shaMaj s.a s.b s.c) % 2 ^ 32
  { a := (t1 + t2) % 2 ^ 32, b := s.a, c := s.b, d := s.c,
    e := (s.d + t1) % 2 ^ 32, f := s.e, g := s.f, h := s.g }

/-- Process one 64-byte chunk: build the schedule, run 64 rounds, and
add the result into the running hash. -/
def shaCompress (hv : List Nat) (chunk : List Nat) : List Nat :=
  let w := shaExtend ((List.range 16).map (fun i => be4 (chunk.drop (4 * i))))
  let s0 : ShaState :=
    { a := hv.getD 0 0, b := hv.getD 1 0, c := hv.getD 2 0, d := hv.getD 3 0,
      e := hv.getD 4 0, f := hv.getD 5 0, g := hv.getD 6 0, h := hv.getD 7 0 }
  let s := (shaK.zip w).foldl shaRound s0
  [(hv.getD 0 0 + s.a) % 2 ^ 32, (hv.getD 1 0 + s.b) % 2 ^ 32,
   (hv.getD 2 0 + s.c) % 2 ^ 32, (hv.getD 3 0 + s.d) % 2 ^ 32,
   (hv.getD 4 0 + s.e) % 2 ^ 32, (hv.getD 5 0 + s.f) % 2 ^ 32,
   (hv.getD 6 0 + s.g) % 2 ^ 32, (hv.getD 7 0 + s.h) % 2 ^ 32]

/-- The eight 32-bit words of the SHA-256 digest of a byte string. -/
def sha256Words (msg : List Nat) : List Nat :=
  (shaChunks (shaPad msg)).foldl shaCompress shaH0

/-- One lowercase hexadecimal digit. -/
def hexDigit (n : Nat) : Char :=
  if n < 10 then Char.ofNat (48 + n) else Char.ofNat (87 + n)

/-- Lowercase 8-digit hexadecimal rendering of a 32-bit word. -/
def hexWord (w : Nat) : List Char :=
  [hexDigit (w / 2 ^ 28 % 16), hexDigit (w / 2 ^ 24 % 16),
   hexDigit (w / 2 ^ 20 % 16), hexDigit (w / 2 ^ 16 % 16),
   hexDigit (w / 2 ^ 12 % 16), hexDigit (w / 2 ^ 8 % 16),
   hexDigit (w / 2 ^ 4 % 16), hexDigit (w % 16)]

/-- Embedding of hashlib's hexdigest(): the lowercase hexadecimal
SHA-256 digest of a byte string. -/
def sha256hex (msg : List Nat) : String :=
  ⟨(sha256Words msg).flatMap hexWord⟩

/-- Decidable equality for Except values (not provided by the core
library in this version). -/
instance {ε α : Type} [DecidableEq ε] [DecidableEq α] : DecidableEq (Except ε α) := by
  intro a b
  cases a <;> cases b
  case error.error e f =>
    exact if h : e = f then .isTrue (by rw [h]) else .isFalse (fun hc => h (by injection hc))
  case error.ok e f => exact .isFalse (fun hc => Except.noConfusion hc)
  case ok.error e f => exact .isFalse (fun hc => Except.noConfusion hc)
  case ok.ok e f =>
    exact if h : e = f then .isTrue (by rw [h]) else .isFalse (fun hc => h (by injection hc))

/-! ## LDPC parity-check matrix builder (files.py, File.__fec_init_matrix)

The Park-Miller generator and the matrix construction, with an explicit
fuel bound on each "while True" draw loop.  Python raises
ZeroDivisionError when n ≤ k (the reductions modulo n - k); the
theorems below assume k < n, where the embedding is exact. -/

/-- Embedding of "File.__fec_prng": one step of the Park-Miller
generator, x ← 7^5 · x mod (2^31 − 1); the yielded value is the
post-update state. -/
def pmNext (v : Nat) : Nat := 16807 * v % 2147483647

/-- Draw loop of the fallback branch: row = next(prng) % m until the
row does not already contain col. -/
def drawRowLoop (fuel v : Nat) (mat : List (List Nat)) (m col : Nat) :
    Option (Nat × Nat) :=
  match fuel with
  | 0 => none
  | fuel + 1 =>
    let v1 := pmNext v
    let row := v1 % m
    if col ∈ mat.getD row [] then drawRowLoop fuel v1 mat m col
    else some (row, v1)

/-- Draw loop of the main branch: p = next(prng) % (k·N1 − t) + t until
row p_tbl[p] does not already contain col. -/
def drawPLoop (fuel v : Nat) (ptbl : List Nat) (mat : List (List Nat))
    (kn1 t col : Nat) : Option (Nat × Nat) :=
  match fuel with
  | 0 => none
  | fuel + 1 =>
    let v1 := pmNext v
    let p := v1 % (kn1 - t) + t
    if col ∈ mat.getD (ptbl.getD p 0) [] then drawPLoop fuel v1 ptbl mat kn1 t col
    else some (p, v1)

/-- Draw loop of the post-pass: col = next(prng) % k until it is not in
the row. -/
def drawColLoop (fuel v : Nat) (row : List Nat) (k : Nat) : Option (Nat × Nat) :=
  match fuel with
  | 0 => none
  | fuel + 1 =>
    let v1 := pmNext v
    let c := v1 % k
    if c ∈ row then drawColLoop fuel v1 row k
    else some (c, v1)

/-- Linear search helper, structurally recursive on the remaining
search width kn1 − i. -/
def searchAux (ptbl : List Nat) (mat : List (List Nat)) (col : Nat) :
    Nat → Nat → Nat
  | 0, i => i
  | r + 1, i => if col ∈ mat.getD (ptbl.getD i 0) [] then
                  searchAux ptbl mat col r (i + 1)
                else i

/-- Linear search "while i < k*n1 and col in matrix[p_tbl[i]]: i += 1"
(the loop runs at most kn1 − i times, and the counter encodes the bound
i < kn1). -/
def searchFirst (ptbl : List Nat) (mat : List (List Nat)) (col i kn1 : Nat) : Nat :=
  searchAux ptbl mat col (kn1 - i) i

/-- Append a column index to one row of the matrix. -/
def appendAt (mat : List (List Nat)) (r c : Nat) : List (List Nat) :=
  mat.set r (mat.getD r [] ++ [c])

/-- Mutable state of the matrix construction. -/
structure LdpcBuild where
  mat : List (List Nat)
  ptbl : List Nat
  t : Nat
  v : Nat
  deriving Repr, DecidableEq

/-- One inner round of the construction (one h in range(N1) for a fixed
column): find the first usable table slot at or after t; if none
exists, append col to a random row, otherwise draw a random table slot,
append col to its row, and swap-retire the slot. -/
def ldpcColRound (fuel kn1 m col : Nat) (st : LdpcBuild) : Option LdpcBuild :=
  let i := searchFirst st.ptbl st.mat col st.t kn1
  if kn1 ≤ i then
    match drawRowLoop fuel st.v st.mat m col with
    | none => none
    | some (row, v1) => some { st with mat := appendAt st.mat row col, v := v1 }
  else
    match drawPLoop fuel st.v st.ptbl st.mat kn1 st.t col with
    | none => none
    | some (p, v1) =>
      some { mat := appendAt st.mat (st.ptbl.getD p 0) col,
             ptbl := st.ptbl.set p (st.ptbl.getD st.t 0),
             t := st.t + 1, v := v1 }

/-- Post-pass on one row: a row of degree 0 gets one random column, and
a row of original degree ≤ 1 gets one more random column distinct from
its current contents. -/
def ldpcPostRow (fuel k : Nat) (row : List Nat) (v : Nat) :
    Option (List Nat × Nat) :=
  let degree := row.length
  let rv := if degree = 0 then
              let v1 := pmNext v
              (row ++ [v1 % k], v1)
            else (row, v)
  if degree ≤ 1 then
    match drawColLoop fuel rv.2 rv.1 k with
    | none => none
    | some (c, v2) => some (rv.1 ++ [c], v2)
  else some rv

/-- Post-pass over all rows in order, threading the generator. -/
def ldpcPostPass (fuel k : Nat) : List (List Nat) → Nat → Option (List (List Nat) × Nat)
  | [], v => some ([], v)
  | row :: rest, v =>
    match ldpcPostRow fuel k row v with
    | none => none
    | some (row1, v1) =>
      match ldpcPostPass fuel k rest v1 with
      | none => none
      | some (rest1, v2) => some (row1 :: rest1, v2)

/-- Embedding of "File.__fec_init_matrix" (files.py lines 277-322): the
full parity-check-matrix construction for parameters (k, n, N1, seed).
The result is None when some draw loop exceeds its fuel, which models
non-termination of the corresponding Python "while True" loop. -/
def fecInitMatrix (fuel k n n1 seed : Nat) : Option (List (List Nat)) :=
  let kn1 := k * n1
  let m := n - k
  let st0 : LdpcBuild :=
    { mat := List.replicate m [],
      ptbl := (List.range kn1).map (· % m),
      t := 0, v := seed }
  match (List.range k).foldlM
          (fun st col => (List.range n1).foldlM
            (fun st _ => ldpcColRound fuel kn1 m col st) st) st0 with
  | none => none
  | some st =>
    match ldpcPostPass fuel k st.mat st.v with
    | none => none
    | some (mat, _) => some mat

/-! ## XML element trees (xml.etree.ElementTree)

The external XML parser is modelled at the level of parsed element
trees: an element has a tag, an optional text (None for an empty
element), and a list of children; find() returns the first direct child
with the given tag. -/

/-- A parsed XML element. -/
structure XmlElem where
  tag : String
  text : Option String
  children : List XmlElem

/-- Embedding of ElementTree's find(): the first direct child with the
given tag, or None. -/
def XmlElem.findChild (e : XmlElem) (name : String) : Option XmlElem :=
  e.children.find? (·.tag == name)

/-- Python "int(elem.text)" where elem is the result of find():
AttributeError when the child is missing (None.text), TypeError when
the text is None, ValueError when it does not parse. -/
def intOfText : Option XmlElem → Except PyErr Int
  | none => .error .attributeError
  | some e =>
    match e.text with
    | none => .error .typeError
    | some s => pyInt s

/-- Python "elem.text" where elem is the result of find():
AttributeError when the child is missing. -/
def textOfChild : Option XmlElem → Except PyErr (Option String)
  | none => .error .attributeError
  | some e => .ok e.text

/-! ## The File object (files.py, class File) -/

/-- A file in progress (files.py, class File).  Integer attributes
parsed from XML are Python ints, hence Int; the data and FEC block
arrays hold None or a byte string per slot.  In Python the
"__fec_matrix" attribute only exists when a fec element was announced;
here it is always present and None until built, which is
indistinguishable because the source only reads it under "if self.fec". -/
structure File where
  id : Int
  path : Option String
  hash : Option String
  size : Int
  blockSize : Int
  blocksCount : Int
  fec : Option String
  fecMatrix : Option (List (List Nat))
  blocks : List (Option (List Nat))
  fecBlocks : List (Option (List Nat))
  deriving Repr, DecidableEq

/-- Embedding of "File.__init__" (files.py lines 158-177): read the
required children id, path, hash, size, block_size (raising on a missing
child or unparsable number), derive blocks = ceil(size / block_size)
(ZeroDivisionError when block_size is 0), read the optional fec string,
and allocate the empty slot arrays. -/
def fileInit (xml : XmlElem) : Except PyErr File := do
  let id ← intOfText (xml.findChild "id")
  let path ← textOfChild (xml.findChild "path")
  let hash ← textOfChild (xml.findChild "hash")
  let size ← intOfText (xml.findChild "size")
  let blockSize ← intOfText (xml.findChild "block_size")
  if blockSize = 0 then .error .zeroDivision
  else
    let blocks := pyCeilDiv size blockSize
    let fec : Option String :=
      match xml.findChild "fec" with
      | none => none
      | some e => e.text
    .ok { id := id, path := path, hash := hash, size := size,
          blockSize := blockSize, blocksCount := blocks, fec := fec,
          fecMatrix := none,
          blocks := List.replicate blocks.toNat none, fecBlocks := [] }

/-- Embedding of "File.push_block" (files.py lines 179-188): store the
block when the slot exists and is falsy (None or empty); an
out-of-range block number is Python's IndexError. -/
def File.pushBlock (f : File) (block : List Nat) (n : Nat) :
    File × Except PyErr Unit :=
  match f.blocks.get? n with
  | none => (f, .error .indexError)
  | some slot =>
    if pyFalsyBytes slot then
      ({ f with blocks := f.blocks.set n (some block) }, .ok ())
    else (f, .ok ())

/-- Embedding of "File.push_fec" (files.py lines 190-202): grow the FEC
array with None slots as needed and store the block (overwriting; the
different-contents case only logs). -/
def File.pushFec (f : File) (block : List Nat) (n : Nat) : File :=
  let fb := if f.fecBlocks.length ≤ n then
              f.fecBlocks ++ List.replicate (n - f.fecBlocks.length + 1) none
            else f.fecBlocks
  { f with fecBlocks := fb.set n (some block) }

/-- Embedding of the "File.maybe_reconstructable" property (files.py
lines 204-212). -/
def File.maybeReconstructable (f : File) : Bool :=
  let base : Int := f.blocksCount - (f.blocks.count none : Nat)
  let recv : Int := if pyTruthyStr f.fec then
                      base + ((f.fecBlocks.length : Int) - (f.fecBlocks.count none : Nat))
                    else base
  recv ≥ f.blocksCount

/-- Embedding of the "File.reconstructable" property (files.py lines
214-219): no data slot is None. -/
def File.reconstructable (f : File) : Bool :=
  f.blocks.count none == 0

/-! ## File reconstruction (files.py, File.reconstruct) -/

/-- The unpadded size of block i: min(block_size, size − block_size·i). -/
def unpaddedSize (size blockSize : Int) (i : Nat) : Int :=
  min blockSize (size - blockSize * (i : Int))

/-- The list comprehension "[i for i in row if not self.__blocks[i]]":
indices of the row whose data slot is falsy; an out-of-range index is
Python's IndexError. -/
def missingOf (blocks : List (Option (List Nat))) : List Nat → Except PyErr (List Nat)
  | [] => .ok []
  | i :: rest =>
    match blocks.get? i with
    | none => .error .indexError
    | some slot =>
      match missingOf blocks rest with
      | .error e => .error e
      | .ok ms => .ok (if pyFalsyBytes slot then i :: ms else ms)

/-- The comprehension "bytes([accum[i] ^ symbol[i] for i in
range(len(accum))])"; when the symbol is shorter than the accumulator,
Python raises IndexError. -/
def xorInto (accum symbol : List Nat) : Except PyErr (List Nat) :=
  if accum.length ≤ symbol.length then
    .ok ((accum.zip symbol).map (fun ab => ab.1 ^^^ ab.2))
  else .error .indexError

/-- One xor step of the repair: skip the missing index, pad the block
of every other participating index to block_size with 0xff bytes, and
xor it into the accumulator. -/
def accumStep (blocks : List (Option (List Nat))) (size blockSize : Int)
    (missingIndex : Nat) (accum : List Nat) (index : Nat) :
    Except PyErr (List Nat) :=
  if index = missingIndex then .ok accum
  else
    match blocks.get? index with
    | none => .error .indexError
    | some none => .error .typeError
    | some (some b) =>
      let u := unpaddedSize size blockSize index
      xorInto accum (pySliceTo b u ++ pyRepeat 0xff (blockSize - u))

/-- Mutable state of the repair loop: the data slots, the live FEC row
indices, and the counters blocks_repaired and blocks_remain. -/
structure RepairState where
  blocks : List (Option (List Nat))
  fecIndices : List Nat
  repaired : Nat
  remain : Int
  deriving Repr, DecidableEq

/-- Body of "for fec_index in fec_indices[:]" for one FEC row (files.py
lines 236-254): rows with more than one missing data column are skipped,
rows with none are retired, and a row with exactly one missing column
repairs it by xor and trims the result to its unpadded size.  The
second component reports a raised exception; mutations made before the
raise are kept. -/
def repairOne (size blockSize : Int) (fecBlocks : List (Option (List Nat)))
    (matrix : List (List Nat)) (st : RepairState) (fecIndex : Nat) :
    RepairState × Option PyErr :=
  match matrix.get? fecIndex with
  | none => (st, some .indexError)
  | some row =>
    match missingOf st.blocks row with
    | .error e => (st, some e)
    | .ok missing =>
      if 1 < missing.length then (st, none)
      else
        let st1 := { st with fecIndices := st.fecIndices.erase fecIndex }
        match missing with
        | [] => (st1, none)
        | missingIndex :: _ =>
          match fecBlocks.get? fecIndex with
          | none => (st1, some .indexError)
          | some none => (st1, some .typeError)
          | some (some accum0) =>
            match row.foldlM (accumStep st1.blocks size blockSize missingIndex) accum0 with
            | .error e => (st1, some e)
            | .ok accum =>
              let mu := unpaddedSize size blockSize missingIndex
              ({ st1 with
                   blocks := st1.blocks.set missingIndex (some (pySliceTo accum mu)),
                   repaired := st1.repaired + 1,
                   remain := st1.remain - 1 }, none)

/-- One pass over a snapshot of the live FEC row indices. -/
def repairPass (size blockSize : Int) (fecBlocks : List (Option (List Nat)))
    (matrix : List (List Nat)) (st : RepairState) :
    List Nat → RepairState × Option PyErr
  | [] => (st, none)
  | i :: rest =>
    match repairOne size blockSize fecBlocks matrix st i with
    | (st1, some e) => (st1, some e)
    | (st1, none) => repairPass size blockSize fecBlocks matrix st1 rest

/-- Outcome of the repair loop. -/
inductive RepairOut where
  | success    -- blocks_remain reached 0: every data slot repaired
  | stalled    -- a pass repaired nothing: "Unable to reconstruct", return None
  deriving Repr, DecidableEq

/-- The "while blocks_remain > 0" loop (files.py lines 234-257): each
iteration resets blocks_repaired, runs one pass over a snapshot of the
live FEC rows, and stalls when the pass repaired nothing. -/
def repairLoop (fuel : Nat) (size blockSize : Int)
    (fecBlocks : List (Option (List Nat))) (matrix : List (List Nat))
    (st : RepairState) : RepairState × Except PyErr RepairOut :=
  if st.remain ≤ 0 then (st, .ok .success)
  else
    match fuel with
    | 0 => (st, .error .outOfFuel)
    | fuel + 1 =>
      let st1 := { st with repaired := 0 }
      match repairPass size blockSize fecBlocks matrix st1 st1.fecIndices with
      | (st2, some e) => (st2, .error e)
      | (st2, none) =>
        if st2.repaired = 0 then (st2, .ok .stalled)
        else repairLoop fuel size blockSize fecBlocks matrix st2

/-- Parse the "ldpc:" parameter string "k=..,n=..,N1=..[,seed=..]"
(files.py line 230 and 284-287): split on commas into key=value pairs
(dict() raises ValueError on a malformed pair), then read k, n, N1
(KeyError when missing) and the optional seed with default 1. -/
def fecParamsOf (s : String) : Except PyErr (Int × Int × Int × Int) := do
  let ps ← (s.splitOn ",").mapM (fun kvp =>
    match kvp.splitOn "=" with
    | [a, b] => Except.ok (a, b)
    | _ => Except.error PyErr.valueError)
  let look := fun (key : String) =>
    match (ps.reverse.find? (·.1 == key)).map (·.2) with
    | none => Except.error PyErr.keyError
    | some v => pyInt v
  let k ← look "k"
  let n ← look "n"
  let n1 ← look "N1"
  let seed ← if ps.any (·.1 == "seed") then look "seed" else pure 1
  return (k, n, n1, seed)

/-- Join of the data blocks, "bytes().join(self.__blocks)": a remaining
None raises TypeError. -/
def joinBlocks (blocks : List (Option (List Nat))) : Except PyErr (List Nat) :=
  if blocks.any (· == none) then .error .typeError
  else .ok ((blocks.map (·.getD [])).flatten)

/-- First phase of "File.reconstruct" (files.py lines 227-263): produce
the assembled contents (or None on a stall or on missing blocks, or a
raised exception) together with the mutated file.  On the LDPC path the
parity matrix is built lazily (an empty or absent matrix is falsy and
triggers a build), the live FEC rows are collected, and the repair loop
runs; negative FEC parameters are outside the modelled domain (the
claims constrain them to n > k ≥ 1). -/
def File.assemble (fuel : Nat) (f : File) : File × Except PyErr (Option (List Nat)) :=
  if pyTruthyStr f.fec ∧ (f.fec.getD "").take 5 = "ldpc:" then
    let needBuild :=
      match f.fecMatrix with
      | none => true
      | some [] => true
      | some (_ :: _) => false
    let build : Except PyErr (File × List (List Nat)) :=
      if needBuild then
        match fecParamsOf ((f.fec.getD "").drop 5) with
        | .error e => .error e
        | .ok (k, n, n1, seed) =>
          match fecInitMatrix fuel k.toNat n.toNat n1.toNat seed.toNat with
          | none => .error .outOfFuel
          | some m => .ok ({ f with fecMatrix := some m }, m)
      else .ok (f, f.fecMatrix.getD [])
    match build with
    | .error e => (f, .error e)
    | .ok (f1, matrix) =>
      let st0 : RepairState :=
        { blocks := f1.blocks,
          fecIndices := (List.range f1.fecBlocks.length).filter
            (fun i => !pyFalsyBytes (f1.fecBlocks.getD i none)),
          repaired := 0,
          remain := (f1.blocks.count none : Nat) }
      match repairLoop fuel f1.size f1.blockSize f1.fecBlocks matrix st0 with
      | (st1, .error e) => ({ f1 with blocks := st1.blocks }, .error e)
      | (st1, .ok .stalled) => ({ f1 with blocks := st1.blocks }, .ok none)
      | (st1, .ok .success) =>
        let f2 := { f1 with blocks := st1.blocks }
        match joinBlocks st1.blocks with
        | .error e => (f2, .error e)
        | .ok contents => (f2, .ok (some contents))
  else
    if f.blocks.any (· == none) then (f, .ok none)
    else
      match joinBlocks f.blocks with
      | .error e => (f, .error e)
      | .ok contents => (f, .ok (some contents))

/-- Embedding of "File.reconstruct" (files.py lines 221-275): assemble
the contents, then gate them on the exact length and on the SHA-256
hexadecimal digest comparing equal (Python string equality, hence
case-sensitively) to the announced hash. -/
def File.reconstruct (fuel : Nat) (f : File) :
    File × Except PyErr (Option (List Nat)) :=
  match File.assemble fuel f with
  | (f1, .ok (some contents)) =>
    if (contents.length : Int) ≠ f1.size then (f1, .ok none)
    else if some (sha256hex contents) ≠ f1.hash then (f1, .ok none)
    else (f1, .ok (some contents))
  | other => other

/-! ## The file service (files.py, class FileService) -/

/-- State of the file service: the id → File dictionary, the output
directory, and the last-file hint.  The source keeps a reference to the
last File object and compares it with "is"; here the hint is the file's
id (the spec's §9 explicitly describes it as "a key (or None),
re-resolved through the map on each use"). -/
structure ServiceState where
  files : Int → Option File
  filesPath : String
  lastFile : Option Int

/-- Python os.path.join of two components (an absolute second component
replaces the first). -/
def osJoin (a b : String) : String :=
  if b.take 1 = "/" then b
  else if a = "" ∨ a.takeRight 1 = "/" then a ++ b
  else a ++ "/" ++ b

/-- Result of one packet-handler invocation: the new service state, the
files written to disk (path and contents), and the outcome (Python
exceptions propagate out of the handler; nothing in free-outernet.py
catches them around router.route). -/
structure HandlerResult where
  state : ServiceState
  writes : List (String × List Nat)
  out : Except PyErr Unit

/-- Update one entry of the id → File dictionary. -/
def ServiceState.setFile (st : ServiceState) (fid : Int) (f : Option File) :
    ServiceState :=
  { st with files := fun i => if i = fid then f else st.files i }

/-- Embedding of "FileService.__try_reconstruct" (files.py lines
131-151): reconstruct the file (mutations are kept in the map), treat a
falsy result (None or empty contents) as failure and return, otherwise
write the bytes under the output directory, delete the map entry and
clear the last-file hint if it pointed here. -/
def tryReconstruct (fuel : Nat) (st : ServiceState) (fid : Int) : HandlerResult :=
  match st.files fid with
  | none => ⟨st, [], .error .keyError⟩
  | some f =>
    let (f1, res) := File.reconstruct fuel f
    let st1 := st.setFile fid (some f1)
    match res with
    | .error e => ⟨st1, [], .error e⟩
    | .ok contents =>
      if pyFalsyBytes contents then ⟨st1, [], .ok ()⟩
      else
        match f1.path with
        | none => ⟨st1, [], .error .typeError⟩    -- os.path.join(dir, None)
        | some p =>
          let st2 := { st1.setFile fid none with
                       lastFile := if st1.lastFile = some fid then none
                                   else st1.lastFile }
          ⟨st2, [(osJoin st.filesPath p, contents.getD [])], .ok ()⟩

/-- Embedding of "FileService.__block_packet" (files.py lines 85-104):
unpack the u32 file id and u16 block number (struct.error on a short
payload), drop unknown ids, give a still-pending previous file one more
reconstruction attempt, push the block, and attempt reconstruction when
every data slot is filled. -/
def blockPacket (fuel : Nat) (st : ServiceState) (payload : List Nat) :
    HandlerResult :=
  if payload.length < 6 then ⟨st, [], .error .structError⟩
  else
    let fid : Int := (be4 payload : Nat)
    let bn := be2 (payload.drop 4)
    let block := payload.drop 6
    match st.files fid with
    | none => ⟨st, [], .ok ()⟩
    | some f =>
      let prior : HandlerResult :=
        match st.lastFile with
        | none => ⟨st, [], .ok ()⟩
        | some lid =>
          if lid ≠ fid ∧ (match st.files lid with
                          | some lf => lf.maybeReconstructable
                          | none => false : Bool) = true then
            tryReconstruct fuel st lid
          else ⟨st, [], .ok ()⟩
      match prior.out with
      | .error e => ⟨prior.state, prior.writes, .error e⟩
      | .ok _ =>
        let st1 := { prior.state with lastFile := some fid }
        let (f1, pres) := f.pushBlock block bn
        let st2 := st1.setFile fid (some f1)
        match pres with
        | .error e => ⟨st2, prior.writes, .error e⟩
        | .ok _ =>
          if f1.reconstructable then
            let r := tryReconstruct fuel st2 fid
            ⟨r.state, prior.writes ++ r.writes, r.out⟩
          else ⟨st2, prior.writes, .ok ()⟩

/-- Embedding of "FileService.__fec_packet" (files.py lines 106-119). -/
def fecPacket (st : ServiceState) (payload : List Nat) : HandlerResult :=
  if payload.length < 6 then ⟨st, [], .error .structError⟩
  else
    let fid : Int := (be4 payload : Nat)
    let bn := be2 (payload.drop 4)
    let block := payload.drop 6
    match st.files fid with
    | none => ⟨st, [], .ok ()⟩
    | some f => ⟨st.setFile fid (some (f.pushFec block bn)), [], .ok ()⟩

/-- Embedding of "FileService.__description_packet" (files.py lines
66-83) from the point where the XML body has been handed to the
external parser: the argument is the outcome of ET.fromstring on the
body (certificate and signature are sliced off and retained unverified
in the source; they do not influence the state).  A parse failure
propagates; otherwise the new file replaces any entry with the same id. -/
def descriptionPacket (st : ServiceState) (xml : Except PyErr XmlElem) :
    HandlerResult :=
  match xml with
  | .error e => ⟨st, [], .error e⟩
  | .ok tree =>
    match fileInit tree with
    | .error e => ⟨st, [], .error e⟩
    | .ok f => ⟨st.setFile f.id (some f), [], .ok ()⟩

/-! ## Fragmenting a payload for the defragmenter round trip -/

/-- The i-th OP packet of a payload split into k equal-size fragments
of size s: fragment_type 0xc3 except 0x3c for the last, one shared
carousel_id, last_fragment k−1, fragment_index i, and an OP length
field of s + 4. -/
def splitPacket (cid s k : Nat) (chunks : List (List Nat)) (i : Nat) : OPPacket :=
  { length := s + 4,
    fragmentType := if i = k - 1 then 0x3c else 0xc3,
    carouselId := cid,
    lastFragment := k - 1,
    fragmentIndex := i,
    payload := chunks.getD i [] }

/-- The full in-order packet sequence of a split payload. -/
def splitPackets (cid s : Nat) (chunks : List (List Nat)) : List OPPacket :=
  (List.range chunks.length).map (splitPacket cid s chunks.length chunks)

/-- The partial-datagram state after the first j fragments of a k-way
split have been pushed (1 ≤ j ≤ k): fragments 0..j−1 recorded in
order, frag_size s, frag_count k, next_index j. -/
def splitPartial (s k j : Nat) (chunks : List (List Nat)) : PartialLDP :=
  { fragments := (List.range j).map (fun i => (i, chunks.getD i [])),
    fragRecv := j, fecRecv := 0,
    fragSize := some (s : Int), fragCount := some k, fecCount := none,
    nextIndex := j }

/-! ## The slot-length invariant of a file in progress (claim C7) -/

/-- The data slots are well-sized: there is one slot per block
(ceil(size / block_size) of them) and a filled slot i holds exactly
min(block_size, size - block_size*i) bytes. -/
def SlotsGood (size blockSize : Int) (blocks : List (Option (List Nat))) : Prop :=
  blocks.length = (pyCeilDiv size blockSize).toNat ∧
  ∀ i b, blocks.getD i none = some b →
    (b.length : Int) = unpaddedSize size blockSize i

/-- Every present FEC block holds exactly block_size bytes. -/
def FecGood (blockSize : Int) (fecBlocks : List (Option (List Nat))) : Prop :=
  ∀ i b, fecBlocks.getD i none = some b → (b.length : Int) = blockSize

/-- The file invariant of claim C7: positive block size, non-negative
announced size, well-sized data slots and well-sized FEC blocks. -/
def FileInv (f : File) : Prop :=
  0 < f.blockSize ∧ 0 ≤ f.size ∧
  SlotsGood f.size f.blockSize f.blocks ∧
  FecGood f.blockSize f.fecBlocks

/-- The states reachable from a freshly announced file (with a sane
descriptor: positive block size, non-negative size) by pushing data
blocks of the slot's unpadded size, pushing FEC blocks of block_size
bytes, and attempting reconstruction. -/
inductive GoodReach : File → Prop where
  | init (xml : XmlElem) (f : File) :
      fileInit xml = .ok f → 0 < f.blockSize → 0 ≤ f.size → GoodReach f
  | pushBlock (f : File) (b : List Nat) (n : Nat) :
      GoodReach f → (b.length : Int) = unpaddedSize f.size f.blockSize n →
      GoodReach (f.pushBlock b n).1
  | pushFec (f : File) (b : List Nat) (n : Nat) :
      GoodReach f → (b.length : Int) = f.blockSize →
      GoodReach (File.pushFec f b n)
  | reconstruct (fuel : Nat) (f : File) :
      GoodReach f → GoodReach (File.reconstruct fuel f).1

/-! ## Theorems

Helper lemmas first, then one theorem per claim (with a witness where
the theorem carries hypotheses, and a counterexample where the claim as
stated fails on the code). -/

theorem DefragState.eq_of_pending {a b : DefragState} (h : a.pending = b.pending) :
    a = b := by
  cases a; cases b; simpa using h

theorem DefragState.store_pending (st : DefragState) (cid : Nat) (p : PartialLDP) :
    (st.store cid p).pending cid = some p := by
  simp [DefragState.store]

theorem DefragState.store_of_pending_eq {st : DefragState} {cid : Nat} {p : PartialLDP}
    (h : st.pending cid = some p) : st.store cid p = st := by
  apply DefragState.eq_of_pending
  funext c
  by_cases hc : c = cid <;> simp [DefragState.store, hc, h]

theorem DefragState.store_store (st : DefragState) (cid : Nat) (p q : PartialLDP) :
    (st.store cid p).store cid q = st.store cid q := by
  apply DefragState.eq_of_pending
  funext c
  by_cases hc : c = cid <;> simp [DefragState.store, hc]

theorem defragPushCore_passthrough (ldp0 : PartialLDP) (pk : OPPacket)
    (ht : pk.fragmentType = 0x3c) (hi : pk.fragmentIndex = 0) :
    defragPushCore ldp0 pk = (.ok (some pk.payload), ldp0) := by
  simp [defragPushCore, ht, hi]

/-- C9: single-fragment pass-through leaves in-flight state intact: for
every packet with fragment_type 0x3c and fragment_index 0 whose
carousel already has a partial datagram, push returns the packet's
payload immediately and the defragmenter state — in particular that
partial, with all its fields — is exactly what it was before the push. -/
theorem c9_passthrough_intact (st : DefragState) (pk : OPPacket) (l : PartialLDP)
    (ht : pk.fragmentType = 0x3c) (hi : pk.fragmentIndex = 0)
    (hl : st.pending pk.carouselId = some l) :
    defragPush st pk = (.ok (some pk.payload), st) := by
  have hcore := defragPushCore_passthrough l pk ht hi
  simp only [defragPush, hl, Option.getD_some, hcore]
  simp [DefragState.store_of_pending_eq hl]

/-- Witness for c9_passthrough_intact at a concrete state and packet. -/
theorem c9_passthrough_intact_witness :
    defragPush
      ⟨fun c => if c = 7 then
          some ⟨[(0, [1])], 1, 0, some 2, some 3, none, 1⟩ else none⟩
      ⟨9, 0x3c, 7, 4, 0, [5, 6]⟩ =
    (.ok (some [5, 6]),
      ⟨fun c => if c = 7 then
          some ⟨[(0, [1])], 1, 0, some 2, some 3, none, 1⟩ else none⟩) :=
  c9_passthrough_intact _ _ _ rfl rfl rfl

theorem defragPushCore_retrograde (l : PartialLDP) (pk : OPPacket)
    (htype : pk.fragmentType = 0x3c ∨ pk.fragmentType = 0xc3)
    (hpass : ¬(pk.fragmentType = 0x3c ∧ pk.fragmentIndex = 0))
    (hback : pk.fragmentIndex < l.nextIndex) :
    defragPushCore l pk = defragPushCore PartialLDP.fresh pk := by
  have hfresh : ¬ pk.fragmentIndex < PartialLDP.fresh.nextIndex := by
    simp [PartialLDP.fresh]
  simp only [defragPushCore, htype, hpass, hback, hfresh, if_true, if_false,
    ite_true, ite_false]

/-- C8: defragmenter out-of-order reset: a data fragment (type 0x3c or
0xc3, not the 0x3c/index-0 pass-through) whose fragment_index is
strictly below the partial's next_index makes the push behave exactly
as if the partial had been reset to a fresh state beforehand: the
outcome and the entire resulting defragmenter state coincide with those
of a push into the reset state, so nothing recorded before the backward
jump survives into this or any later emission (no stale prefix). -/
theorem c8_retrograde_reset (st : DefragState) (pk : OPPacket) (l : PartialLDP)
    (htype : pk.fragmentType = 0x3c ∨ pk.fragmentType = 0xc3)
    (hpass : ¬(pk.fragmentType = 0x3c ∧ pk.fragmentIndex = 0))
    (hl : st.pending pk.carouselId = some l)
    (hback : pk.fragmentIndex < l.nextIndex) :
    defragPush st pk = defragPush (st.store pk.carouselId PartialLDP.fresh) pk := by
  have hcore := defragPushCore_retrograde l pk htype hpass hback
  simp only [defragPush, hl, Option.getD_some, DefragState.store_pending, hcore,
    DefragState.store_store]

/-- Witness for c8_retrograde_reset: a retrograde 0xc3 fragment on a
carousel whose partial has next_index 2. -/
theorem c8_retrograde_reset_witness :
    defragPush
      ⟨fun c => if c = 3 then
          some ⟨[(0, [1]), (1, [2])], 2, 0, some 1, some 4, none, 2⟩ else none⟩
      ⟨5, 0xc3, 3, 3, 1, [9]⟩ =
    defragPush
      ((⟨fun c => if c = 3 then
          some ⟨[(0, [1]), (1, [2])], 2, 0, some 1, some 4, none, 2⟩ else none⟩ :
          DefragState).store 3 PartialLDP.fresh)
      ⟨5, 0xc3, 3, 3, 1, [9]⟩ :=
  c8_retrograde_reset _ _ _ (Or.inr rfl) (by simp) rfl (by simp)


theorem find?_range_map (j m : Nat) (f : Nat → List Nat) :
    ((List.range j).map (fun i => (i, f i))).find? (·.1 == m) =
      if m < j then some (m, f m) else none := by
  induction j with
  | zero => simp
  | succ n ih =>
    rw [List.range_succ, List.map_append, List.find?_append, ih]
    by_cases h1 : m < n
    · simp [h1, Nat.lt_succ_of_lt h1]
    · by_cases h2 : m = n
      · subst h2; simp
      · have : ¬ m < n + 1 := by omega
        simp [h1, h2, this, Ne.symm h2]

theorem fragLookup_range_map (j m : Nat) (f : Nat → List Nat) :
    fragLookup ((List.range j).map (fun i => (i, f i))) m =
      if m < j then some (f m) else none := by
  rw [fragLookup, find?_range_map]
  by_cases h : m < j <;> simp [h]

theorem hasKey_range_map_eq_false (j m : Nat) (f : Nat → List Nat) (hm : j ≤ m)
    (p : PartialLDP) (hp : p.fragments = (List.range j).map (fun i => (i, f i))) :
    p.hasKey m = false := by
  simp only [PartialLDP.hasKey, hp, List.any_eq_false, List.mem_map, List.mem_range]
  rintro x ⟨i, hi, rfl⟩
  have hne : i ≠ m := by omega
  simpa using beq_eq_false_iff_ne.mpr hne

theorem mapM_option_of_forall {α β : Type} (l : List α) (f : α → Option β) (g : α → β)
    (h : ∀ a ∈ l, f a = some (g a)) : l.mapM f = some (l.map g) := by
  induction l with
  | nil => rfl
  | cons a t ih =>
    rw [List.mapM_cons, h a (by simp), ih (fun x hx => h x (by simp [hx]))]
    rfl

theorem range_map_getD (l : List (List Nat)) :
    (List.range l.length).map (fun i => l.getD i []) = l := by
  induction l with
  | nil => simp
  | cons a t ih =>
    simp only [List.length_cons, List.range_succ_eq_map, List.map_cons, List.map_map]
    refine congrArg₂ _ rfl ?_
    calc (List.range t.length).map ((fun i => (a :: t).getD i []) ∘ Nat.succ)
        = (List.range t.length).map (fun i => t.getD i []) := by
          apply List.map_congr_left; intro i hi; rfl
      _ = t := ih

theorem splitPartial_fragSize_set (s k j : Nat) (chunks : List (List Nat)) :
    { splitPartial s k j chunks with
        fragSize := some (((s + 4 : Nat) : Int) - 4) } = splitPartial s k j chunks := by
  simp only [splitPartial]
  congr 1
  push_cast
  ring_nf

theorem c4_first_step (cid s : Nat) (chunks : List (List Nat))
    (hk : 2 ≤ chunks.length) :
    defragPushCore PartialLDP.fresh (splitPacket cid s chunks.length chunks 0) =
      (.ok none, splitPartial s chunks.length 1 chunks) := by
  obtain ⟨K, hK⟩ : ∃ K, chunks.length = K + 2 := ⟨chunks.length - 2, by omega⟩
  have hty : (splitPacket cid s chunks.length chunks 0).fragmentType = 0xc3 := by
    simp [splitPacket]; omega
  simp only [defragPushCore, hty]
  norm_num
  simp only [PartialLDP.fresh, pyFalsyInt, pyFalsyNat, splitPacket, hK]
  norm_num
  simp only [PartialLDP.pushData, PartialLDP.hasKey, List.any_nil, Bool.false_eq_true,
    if_false, ite_false, List.nil_append]
  simp only [splitPartial, hK]
  simp [PartialLDP.mk.injEq, List.range_succ, List.getD]

theorem range_map_append_succ {α : Type} (j : Nat) (g : Nat → α) :
    (List.range j).map (fun i => (i, g i)) ++ [(j, g j)] =
      (List.range (j + 1)).map (fun i => (i, g i)) := by
  rw [List.range_succ, List.map_append]
  rfl

theorem c4_mid_step (cid s j : Nat) (chunks : List (List Nat))
    (h1 : 1 ≤ j) (h2 : j < chunks.length - 1) :
    defragPushCore (splitPartial s chunks.length j chunks)
        (splitPacket cid s chunks.length chunks j) =
      (.ok none, splitPartial s chunks.length (j + 1) chunks) := by
  obtain ⟨K, hK⟩ : ∃ K, chunks.length = K + 2 := ⟨chunks.length - 2, by omega⟩
  have hty : (splitPacket cid s chunks.length chunks j).fragmentType = 0xc3 := by
    simp [splitPacket]; omega
  have hkey : ((List.range j).map (fun i => (i, chunks.getD i []))).any (·.1 == j) = false := by
    simp only [List.any_eq_false, List.mem_map, List.mem_range]
    rintro x ⟨i, hi, rfl⟩
    have hne : i ≠ j := by omega
    simpa using beq_eq_false_iff_ne.mpr hne
  simp only [defragPushCore, hty]
  norm_num
  simp only [splitPacket, splitPartial, pyFalsyInt, pyFalsyNat, hK,
    PartialLDP.pushData, PartialLDP.hasKey]
  norm_num
  exact range_map_append_succ j (fun i => chunks[i]?.getD [])

theorem decode_full (k : Nat) (chunks : List (List Nat)) (hk : chunks.length = k)
    (fs : Option Int) (fc : Option Nat) (ni : Nat) :
    PartialLDP.decode
      { fragments := (List.range k).map (fun i => (i, chunks.getD i [])),
        fragRecv := k, fecRecv := 0, fragSize := fs, fragCount := some k,
        fecCount := fc, nextIndex := ni } = .ok (some chunks.flatten) := by
  subst hk
  have hmap : (List.range chunks.length).mapM
      (fragLookup ((List.range chunks.length).map (fun i => (i, chunks.getD i [])))) =
      some ((List.range chunks.length).map (fun i => chunks.getD i [])) := by
    apply mapM_option_of_forall
    intro a ha
    rw [fragLookup_range_map]
    simp [List.mem_range.mp ha]
  rw [range_map_getD] at hmap
  simp only [PartialLDP.decode, hmap, if_true]

theorem c4_last_step (cid s : Nat) (chunks : List (List Nat))
    (hk : 2 ≤ chunks.length) :
    defragPushCore (splitPartial s chunks.length (chunks.length - 1) chunks)
        (splitPacket cid s chunks.length chunks (chunks.length - 1)) =
      (.ok (some chunks.flatten), PartialLDP.fresh) := by
  obtain ⟨K, hK⟩ : ∃ K, chunks.length = K + 2 := ⟨chunks.length - 2, by omega⟩
  have hty : (splitPacket cid s chunks.length chunks
      (chunks.length - 1)).fragmentType = 0x3c := by
    simp [splitPacket]
  have hkey : ((List.range (K + 1)).map (fun i => (i, chunks.getD i []))).any
      (·.1 == K + 1) = false := by
    simp only [List.any_eq_false, List.mem_map, List.mem_range]
    rintro x ⟨i, hi, rfl⟩
    have hne : i ≠ K + 1 := by omega
    simpa using beq_eq_false_iff_ne.mpr hne
  have hfrag := range_map_append_succ (K + 1) (fun i => chunks.getD i [])
  have hdec := decode_full (K + 2) chunks hK (some (s : Int)) none (K + 2)
  simp only [defragPushCore, hty]
  norm_num
  simp only [splitPacket, splitPartial, pyFalsyInt, pyFalsyNat, hK,
    PartialLDP.pushData, PartialLDP.hasKey, PartialLDP.complete]
  norm_num
  simp only [List.getD_eq_getElem?_getD] at hfrag hdec
  rw [hfrag]
  simp only [show K + 1 + 1 = K + 2 from rfl, hdec]

theorem defragPush_pending_some (st : DefragState) (pk : OPPacket) (p : PartialLDP)
    (h : st.pending pk.carouselId = some p) :
    defragPush st pk =
      ((defragPushCore p pk).1, st.store pk.carouselId (defragPushCore p pk).2) := by
  simp only [defragPush, h, Option.getD_some]

theorem defragPush_pending_none (st : DefragState) (pk : OPPacket)
    (h : st.pending pk.carouselId = none) :
    defragPush st pk =
      ((defragPushCore PartialLDP.fresh pk).1,
       st.store pk.carouselId (defragPushCore PartialLDP.fresh pk).2) := by
  simp only [defragPush, h, Option.getD_none]

theorem c4_tail (cid s : Nat) (chunks : List (List Nat)) :
    ∀ (n j : Nat), chunks.length - j = n + 1 → 1 ≤ j → j < chunks.length →
    defragPushSeq (DefragState.empty.store cid (splitPartial s chunks.length j chunks))
        ((List.range' j (chunks.length - j)).map (splitPacket cid s chunks.length chunks)) =
      (List.replicate (chunks.length - 1 - j) (.ok none) ++ [.ok (some chunks.flatten)],
       DefragState.empty.store cid PartialLDP.fresh) := by
  intro n
  induction n with
  | zero =>
    intro j hn h1 h2
    have hj : j = chunks.length - 1 := by omega
    have h2len : 2 ≤ chunks.length := by omega
    subst hj
    rw [hn, List.range'_succ]
    simp only [List.map_cons, List.range'_zero, List.map_nil, defragPushSeq]
    rw [defragPush_pending_some _ _ (splitPartial s chunks.length (chunks.length - 1) chunks)
      (by simp [splitPacket, DefragState.store])]
    rw [c4_last_step cid s chunks h2len]
    simp only [defragPushSeq]
    rw [show (splitPacket cid s chunks.length chunks
      (chunks.length - 1)).carouselId = cid from rfl, DefragState.store_store]
    simp
  | succ m ih =>
    intro j hn h1 h2
    have hmid : j < chunks.length - 1 := by omega
    rw [hn, List.range'_succ]
    simp only [List.map_cons, defragPushSeq]
    rw [defragPush_pending_some _ _ (splitPartial s chunks.length j chunks)
      (by simp [splitPacket, DefragState.store])]
    rw [c4_mid_step cid s j chunks h1 hmid]
    simp only [DefragState.store_store]
    rw [show (splitPacket cid s chunks.length chunks j).carouselId = cid from rfl,
      DefragState.store_store]
    have hrec := ih (j + 1) (by omega) (by omega) (by omega)
    rw [show chunks.length - (j + 1) = m + 1 by omega] at hrec
    simp only [defragPushSeq] at hrec ⊢
    have hfst := congrArg Prod.fst hrec
    have hsnd := congrArg Prod.snd hrec
    simp only at hfst hsnd
    rw [hfst, hsnd]
    have : chunks.length - 1 - j = (chunks.length - 1 - (j + 1)) + 1 := by omega
    rw [this, List.replicate_succ]
    simp

/-- C4: defragmenter lossless concatenation: for every payload split
into k ≤ 256 equal-size fragments sharing one carousel_id, with
fragment_type 0xc3 for fragments 0..k−2 and 0x3c for fragment k−1, each
carrying last_fragment = k−1, its own zero-based fragment_index, and an
OP length field of fragment size + 4, pushing the k packets in index
order into a fresh defragmenter returns None for every push except the
last, which returns exactly the concatenation of the fragments. -/
theorem c4_defrag_lossless (cid s : Nat) (chunks : List (List Nat))
    (hne : chunks ≠ []) (hk : chunks.length ≤ 256)
    (hsz : ∀ c ∈ chunks, c.length = s) (_hbyte : s + 4 ≤ 255) :
    (defragPushSeq DefragState.empty (splitPackets cid s chunks)).1 =
      List.replicate (chunks.length - 1) (.ok none) ++
        [.ok (some chunks.flatten)] := by
  have hlen : 1 ≤ chunks.length := List.length_pos.mpr hne
  by_cases h1 : chunks.length = 1
  · obtain ⟨c, rfl⟩ := List.length_eq_one.mp h1
    simp [splitPackets, defragPushSeq, defragPush, defragPushCore, splitPacket,
      DefragState.empty]
  · have h2 : 2 ≤ chunks.length := by omega
    have hsplit : splitPackets cid s chunks =
        splitPacket cid s chunks.length chunks 0 ::
          (List.range' 1 (chunks.length - 1)).map
            (splitPacket cid s chunks.length chunks) := by
      rw [splitPackets, List.range_eq_range']
      rw [show chunks.length = (chunks.length - 1) + 1 by omega, List.range'_succ]
      simp only [List.map_cons]
      rw [show (chunks.length - 1) + 1 = chunks.length by omega]
    rw [hsplit]
    simp only [defragPushSeq]
    rw [defragPush_pending_none _ _ rfl]
    rw [c4_first_step cid s chunks h2]
    rw [show (splitPacket cid s chunks.length chunks 0).carouselId = cid from rfl]
    have htail := c4_tail cid s chunks (chunks.length - 2) 1 (by omega) (le_refl 1) (by omega)
    rw [show chunks.length - 1 = (chunks.length - 2) + 1 by omega] at htail
    rw [show chunks.length - 1 = (chunks.length - 1 - 1) + 1 by omega, List.replicate_succ]
    simp only [defragPushSeq] at htail ⊢
    have hfst := congrArg Prod.fst htail
    simp only at hfst
    rw [show chunks.length - 2 + 1 - 1 = chunks.length - 2 from by omega] at hfst
    rw [show chunks.length - 1 - 1 = chunks.length - 2 from by omega]
    rw [hfst]
    simp

/-- Witness for c4_defrag_lossless: a three-fragment split of a
six-byte payload. -/
theorem c4_defrag_lossless_witness :
    (defragPushSeq DefragState.empty (splitPackets 9 2 [[1, 2], [3, 4], [5, 6]])).1 =
      List.replicate 2 (.ok none) ++ [.ok (some [1, 2, 3, 4, 5, 6])] := by
  have h := c4_defrag_lossless 9 2 [[1, 2], [3, 4], [5, 6]]
    (by decide) (by decide) (by decide) (by decide)
  simpa using h

theorem crcPoly_lt : crcPoly < 0x100000000 := by decide

theorem crcStep_lt {s : Nat} (h : s < 0x100000000) : crcStep s < 0x100000000 := by
  unfold crcStep
  by_cases h1 : s < 0x80000000
  · simp only [h1, if_true]
    omega
  · simp only [h1, if_false, ite_false]
    exact @Nat.xor_lt_two_pow _ _ 32 (by omega) (by norm_num [crcPoly])

theorem xor_parity_poly {x : Nat} (hx : x % 2 = 0) : (x ^^^ crcPoly) % 2 = 1 := by
  have h0 : (x ^^^ crcPoly).testBit 0 = true := by
    rw [Nat.testBit_xor]
    have hx0 : x.testBit 0 = false := by
      rw [Nat.testBit_zero]
      simp [hx]
    have hp0 : crcPoly.testBit 0 = true := by decide
    rw [hx0, hp0]
    rfl
  rw [Nat.testBit_zero] at h0
  simpa using h0

theorem crcStep_inj {a b : Nat} (ha : a < 0x100000000) (hb : b < 0x100000000)
    (h : crcStep a = crcStep b) : a = b := by
  unfold crcStep at h
  by_cases h1 : a < 0x80000000 <;> by_cases h2 : b < 0x80000000
  · simp only [h1, h2, if_true] at h
    omega
  · simp only [h1, h2, if_true, if_false, ite_false] at h
    exfalso
    have hl : (2 * a % 0x100000000) % 2 = 0 := by omega
    have hr : ((2 * b % 0x100000000) ^^^ crcPoly) % 2 = 1 :=
      xor_parity_poly (by omega)
    rw [h] at hl
    omega
  · simp only [h1, h2, if_true, if_false, ite_false] at h
    exfalso
    have hl : (2 * b % 0x100000000) % 2 = 0 := by omega
    have hr : ((2 * a % 0x100000000) ^^^ crcPoly) % 2 = 1 :=
      xor_parity_poly (by omega)
    rw [← h] at hl
    omega
  · simp only [h1, h2, if_false, ite_false] at h
    have := congrArg (· ^^^ crcPoly) h
    simp only [Nat.xor_assoc, Nat.xor_self, Nat.xor_zero] at this
    omega

theorem crcStep8_lt {s : Nat} (h : s < 0x100000000) : crcStep8 s < 0x100000000 := by
  unfold crcStep8
  exact crcStep_lt (crcStep_lt (crcStep_lt (crcStep_lt (crcStep_lt (crcStep_lt
    (crcStep_lt (crcStep_lt h)))))))

theorem crcStep8_inj {a b : Nat} (ha : a < 0x100000000) (hb : b < 0x100000000)
    (h : crcStep8 a = crcStep8 b) : a = b := by
  unfold crcStep8 at h
  have l1 := crcStep_lt ha
  have l2 := crcStep_lt l1
  have l3 := crcStep_lt l2
  have l4 := crcStep_lt l3
  have l5 := crcStep_lt l4
  have l6 := crcStep_lt l5
  have l7 := crcStep_lt l6
  have r1 := crcStep_lt hb
  have r2 := crcStep_lt r1
  have r3 := crcStep_lt r2
  have r4 := crcStep_lt r3
  have r5 := crcStep_lt r4
  have r6 := crcStep_lt r5
  have r7 := crcStep_lt r6
  exact crcStep_inj ha hb (crcStep_inj l1 r1 (crcStep_inj l2 r2 (crcStep_inj l3 r3
    (crcStep_inj l4 r4 (crcStep_inj l5 r5 (crcStep_inj l6 r6 (crcStep_inj l7 r7 h)))))))

theorem crcByteUpd_lt {s b : Nat} (hs : s < 0x100000000) (hb : b < 256) :
    crcByteUpd s b < 0x100000000 := by
  unfold crcByteUpd
  exact crcStep8_lt (@Nat.xor_lt_two_pow _ _ 32 hs (by omega))

theorem crcByteUpd_state_inj {s t b : Nat} (hs : s < 0x100000000)
    (ht : t < 0x100000000) (hb : b < 256) (h : crcByteUpd s b = crcByteUpd t b) :
    s = t := by
  unfold crcByteUpd at h
  have h1 := crcStep8_inj (@Nat.xor_lt_two_pow _ _ 32 hs (by omega))
    (@Nat.xor_lt_two_pow _ _ 32 ht (by omega)) h
  have := congrArg (· ^^^ b * 0x1000000) h1
  simpa only [Nat.xor_assoc, Nat.xor_self, Nat.xor_zero] using this

theorem crcByteUpd_byte_inj {s b c : Nat} (hs : s < 0x100000000)
    (hb : b < 256) (hc : c < 256) (h : crcByteUpd s b = crcByteUpd s c) :
    b = c := by
  unfold crcByteUpd at h
  have h1 := crcStep8_inj (@Nat.xor_lt_two_pow _ _ 32 hs (by omega))
    (@Nat.xor_lt_two_pow _ _ 32 hs (by omega)) h
  have h2 := congrArg (s ^^^ ·) h1
  simp only [← Nat.xor_assoc, Nat.xor_self, Nat.zero_xor] at h2
  exact Nat.eq_of_mul_eq_mul_right (by norm_num) h2

theorem crcFold_lt {l : List Nat} (hl : ∀ x ∈ l, x < 256) :
    ∀ {s : Nat}, s < 0x100000000 → l.foldl crcByteUpd s < 0x100000000 := by
  induction l with
  | nil => intro s hs; simpa using hs
  | cons a t ih =>
    intro s hs
    rw [List.foldl_cons]
    exact ih (fun x hx => hl x (by simp [hx]))
      (crcByteUpd_lt hs (hl a (by simp)))

theorem crcFold_inj {l : List Nat} (hl : ∀ x ∈ l, x < 256) :
    ∀ {s t : Nat}, s < 0x100000000 → t < 0x100000000 →
      l.foldl crcByteUpd s = l.foldl crcByteUpd t → s = t := by
  induction l with
  | nil => intro s t _ _ h; simpa using h
  | cons a t ih =>
    intro s u hs hu h
    rw [List.foldl_cons, List.foldl_cons] at h
    have ha : a < 256 := hl a (by simp)
    have := ih (fun x hx => hl x (by simp [hx]))
      (crcByteUpd_lt hs ha) (crcByteUpd_lt hu ha) h
    exact crcByteUpd_state_inj hs hu ha this

theorem crc_single_byte_ne {pre suf : List Nat} {b c : Nat}
    (hpre : ∀ x ∈ pre, x < 256) (hsuf : ∀ x ∈ suf, x < 256)
    (hb : b < 256) (hc : c < 256) (hbc : b ≠ c) :
    crc32mpeg (pre ++ b :: suf) ≠ crc32mpeg (pre ++ c :: suf) := by
  intro h
  unfold crc32mpeg at h
  rw [List.foldl_append, List.foldl_append, List.foldl_cons, List.foldl_cons] at h
  have hS : pre.foldl crcByteUpd 0xFFFFFFFF < 0x100000000 :=
    crcFold_lt hpre (by norm_num)
  have h1 := crcFold_inj hsuf (crcByteUpd_lt hS hb) (crcByteUpd_lt hS hc) h
  exact hbc (crcByteUpd_byte_inj hS hb hc h1)

theorem xor_high_cancel (a c : Nat) (hc : c < 0x1000000) :
    (0x1000000 * a + c) ^^^ a * 0x1000000 = c := by
  apply Nat.eq_of_testBit_eq
  intro i
  rw [Nat.testBit_xor]
  rw [show (0x1000000 : Nat) = 2 ^ 24 from by norm_num] at *
  rw [Nat.testBit_mul_pow_two_add a hc]
  rw [show a * 2 ^ 24 = a <<< 24 from by rw [Nat.shiftLeft_eq]]
  rw [Nat.testBit_shiftLeft]
  by_cases hi : i < 24
  · simp [hi, Nat.not_le.mpr hi]
  · have h24 : i ≥ 24 := Nat.not_lt.mp hi
    have hcbit : c.testBit i = false :=
      Nat.testBit_lt_two_pow (Nat.lt_of_lt_of_le hc (Nat.pow_le_pow_right (by norm_num) h24))
    simp [hi, h24, hcbit]

theorem crcStep_double {v : Nat} (h : v < 0x80000000) : crcStep v = 2 * v := by
  unfold crcStep
  rw [if_pos h]
  exact Nat.mod_eq_of_lt (by omega)

theorem crcStep8_shift {v : Nat} (h : v < 0x1000000) : crcStep8 v = v * 0x100 := by
  have e1 : crcStep v = 2 * v := crcStep_double (by omega)
  have e2 : crcStep (2 * v) = 2 * (2 * v) := crcStep_double (by omega)
  have e3 : crcStep (2 * (2 * v)) = 2 * (2 * (2 * v)) := crcStep_double (by omega)
  have e4 : crcStep (2 * (2 * (2 * v))) = 2 * (2 * (2 * (2 * v))) :=
    crcStep_double (by omega)
  have e5 : crcStep (2 * (2 * (2 * (2 * v)))) = 2 * (2 * (2 * (2 * (2 * v)))) :=
    crcStep_double (by omega)
  have e6 : crcStep (2 * (2 * (2 * (2 * (2 * v))))) =
      2 * (2 * (2 * (2 * (2 * (2 * v))))) := crcStep_double (by omega)
  have e7 : crcStep (2 * (2 * (2 * (2 * (2 * (2 * v)))))) =
      2 * (2 * (2 * (2 * (2 * (2 * (2 * v)))))) := crcStep_double (by omega)
  have e8 : crcStep (2 * (2 * (2 * (2 * (2 * (2 * (2 * v))))))) =
      2 * (2 * (2 * (2 * (2 * (2 * (2 * (2 * v))))))) := crcStep_double (by omega)
  unfold crcStep8
  rw [e1, e2, e3, e4, e5, e6, e7, e8]
  ring

theorem crcByteUpd_split (q r : Nat) (hr : r < 0x1000000) :
    crcByteUpd (0x1000000 * q + r) q = r * 0x100 := by
  unfold crcByteUpd
  rw [xor_high_cancel q r hr]
  exact crcStep8_shift hr

theorem crcByteUpd_top (S b : Nat) (hS : S < 0x100000000) (hb : b = S / 0x1000000) :
    crcByteUpd S b = S % 0x1000000 * 0x100 := by
  subst hb
  have h := crcByteUpd_split (S / 0x1000000) (S % 0x1000000) (by omega)
  rw [show 0x1000000 * (S / 0x1000000) + S % 0x1000000 = S from by omega] at h
  exact h

theorem crc_trailer_zero (m : List Nat) (hm : ∀ x ∈ m, x < 256) :
    crc32mpeg (m ++ crcTrailer (crc32mpeg m)) = 0 := by
  have hS : crc32mpeg m < 0x100000000 := crcFold_lt hm (by norm_num)
  unfold crc32mpeg
  rw [List.foldl_append]
  have hSdef : List.foldl crcByteUpd 0xFFFFFFFF m = crc32mpeg m := rfl
  rw [hSdef]
  set S := crc32mpeg m with hSd
  simp only [crcTrailer, List.foldl_cons, List.foldl_nil]
  rw [crcByteUpd_top S (S / 0x1000000 % 0x100) hS (by omega)]
  rw [crcByteUpd_top (S % 0x1000000 * 0x100) (S / 0x10000 % 0x100) (by omega) (by omega)]
  rw [crcByteUpd_top (S % 0x1000000 * 0x100 % 0x1000000 * 0x100) (S / 0x100 % 0x100)
    (by omega) (by omega)]
  rw [crcByteUpd_top (S % 0x1000000 * 0x100 % 0x1000000 * 0x100 % 0x1000000 * 0x100)
    (S % 0x100) (by omega) (by omega)]
  omega

theorem be4Bytes_length (w : Nat) : (be4Bytes w).length = 4 := rfl

theorem crcTrailer_length (v : Nat) : (crcTrailer v).length = 4 := rfl

theorem mkDatagram_length (t : Nat) (s : List Nat) :
    (mkDatagram t s).length = s.length + 8 := by
  simp [mkDatagram, be4Bytes, crcTrailer]

theorem be4Bytes_lt (w : Nat) : ∀ x ∈ be4Bytes w, x < 256 := by
  intro x hx
  simp only [be4Bytes, List.mem_cons, List.not_mem_nil, or_false] at hx
  rcases hx with h | h | h | h <;> omega

theorem crcTrailer_lt (v : Nat) : ∀ x ∈ crcTrailer v, x < 256 := by
  intro x hx
  simp only [crcTrailer, List.mem_cons, List.not_mem_nil, or_false] at hx
  rcases hx with h | h | h | h <;> omega

theorem mkDatagram_bytes (t : Nat) (s : List Nat) (hs : ∀ x ∈ s, x < 256) :
    ∀ x ∈ mkDatagram t s, x < 256 := by
  intro x hx
  rcases List.mem_append.mp hx with h | h
  · rcases List.mem_append.mp h with h1 | h1
    · exact be4Bytes_lt _ x h1
    · exact hs x h1
  · exact crcTrailer_lt _ x h

theorem be4_be4Bytes (w : Nat) (hw : w < 0x100000000) : be4 (be4Bytes w) = w := by
  show w / 0x1000000 % 0x100 * 0x1000000 + w / 0x10000 % 0x100 * 0x10000 +
      w / 0x100 % 0x100 * 0x100 + w % 0x100 = w
  omega

theorem mkDatagram_take4 (t : Nat) (s : List Nat) :
    (mkDatagram t s).take 4 = be4Bytes (t * 0x1000000 + (s.length + 8)) := by
  show ((be4Bytes (t * 0x1000000 + (s.length + 8)) ++ s) ++
      crcTrailer (crc32mpeg (be4Bytes (t * 0x1000000 + (s.length + 8)) ++ s))).take 4 =
    be4Bytes (t * 0x1000000 + (s.length + 8))
  rw [List.append_assoc]
  rw [show (4 : Nat) = (be4Bytes (t * 0x1000000 + (s.length + 8))).length from rfl]
  exact List.take_left _ _

theorem crc32mpeg_mkDatagram (t : Nat) (s : List Nat) (ht : t < 256)
    (hs : ∀ x ∈ s, x < 256) (hlen : s.length + 8 < 0x1000000) :
    crc32mpeg (mkDatagram t s) = 0 := by
  apply crc_trailer_zero
  intro x hx
  rcases List.mem_append.mp hx with h | h
  · exact be4Bytes_lt _ x h
  · exact hs x h

/-- Round-trip half of the amended C3: a well-formed datagram parses
back to its type and payload. -/
theorem ldpParse_mkDatagram (t : Nat) (s : List Nat) (ht : t < 256)
    (hs : ∀ x ∈ s, x < 256) (hlen : s.length + 8 < 0x1000000) :
    ldpParse (mkDatagram t s) = .ok (t, s) := by
  have hL := mkDatagram_length t s
  have hw : t * 0x1000000 + (s.length + 8) < 0x100000000 := by omega
  have hhead : be4 ((mkDatagram t s).take 4) = t * 0x1000000 + (s.length + 8) := by
    rw [mkDatagram_take4, be4_be4Bytes _ hw]
  unfold ldpParse
  rw [if_neg (by omega)]
  simp only [hhead,
    show (t * 0x1000000 + (s.length + 8)) / 0x1000000 = t from by omega,
    show (t * 0x1000000 + (s.length + 8)) % 0x1000000 = s.length + 8 from by omega]
  rw [if_neg (by omega)]
  rw [show (mkDatagram t s).take (s.length + 8) = mkDatagram t s from by
    rw [← hL]; exact List.take_length _]
  rw [crc32mpeg_mkDatagram t s ht hs hlen]
  rw [if_neg (by simp)]
  have hslice : pySlice (mkDatagram t s) 4 (((s.length + 8 : Nat) : Int) - 4) = s := by
    simp only [pySlice]
    rw [if_neg (by omega), if_neg (by omega)]
    rw [show ((4 : Int)).toNat = 4 from rfl]
    rw [show (((s.length + 8 : Nat) : Int) - 4).toNat = s.length + 4 from by omega]
    show (((be4Bytes (t * 0x1000000 + (s.length + 8)) ++ s) ++
        crcTrailer (crc32mpeg (be4Bytes (t * 0x1000000 + (s.length + 8)) ++ s))).take
          (s.length + 4)).drop 4 = s
    rw [List.append_assoc]
    rw [show s.length + 4 = 4 + s.length from by omega]
    rw [show (4 : Nat) + s.length =
        (be4Bytes (t * 0x1000000 + (s.length + 8))).length + s.length from rfl]
    rw [List.take_append]
    rw [List.take_left]
    rw [show (4 : Nat) = (be4Bytes (t * 0x1000000 + (s.length + 8))).length from rfl]
    exact List.drop_left _ _
  rw [hslice]

theorem getD_take4 (l : List Nat) (i : Nat) (h : i < 4) :
    (l.take 4).getD i 0 = l.getD i 0 := by
  simp [List.getD_eq_getElem?_getD, List.getElem?_take, h]

theorem be4_take4 (l : List Nat) : be4 (l.take 4) = be4 l := by
  unfold be4
  rw [getD_take4 l 0 (by norm_num), getD_take4 l 1 (by norm_num),
    getD_take4 l 2 (by norm_num), getD_take4 l 3 (by norm_num)]

theorem getD_mem_lt (l : List Nat) (i : Nat) (hi : i < l.length)
    (hl : ∀ x ∈ l, x < 256) : l.getD i 0 < 256 := by
  rw [List.getD_eq_getElem l 0 hi]
  exact hl _ (List.getElem_mem hi)

/-- Corruption half of the amended C3: flipping any single bit of a
well-formed datagram outside the 24-bit length field (byte 0, the type
byte, or any byte from offset 4 on, up to the end of data[0..length))
makes parsing fail with the checksum error. -/
theorem ldpParse_flipBit (t : Nat) (s : List Nat) (ht : t < 256)
    (hs : ∀ x ∈ s, x < 256) (hlen : s.length + 8 < 0x1000000)
    (j k : Nat) (hj : j < s.length + 8) (hjh : j = 0 ∨ 4 ≤ j) (hk : k < 8) :
    ldpParse (flipBit (mkDatagram t s) j k) = .error .badChecksum := by
  have hL : (mkDatagram t s).length = s.length + 8 := mkDatagram_length t s
  have hbytes := mkDatagram_bytes t s hs
  have hjlt : j < (mkDatagram t s).length := by omega
  have hblt : (mkDatagram t s).getD j 0 < 256 := getD_mem_lt _ j hjlt hbytes
  have hclt : (mkDatagram t s).getD j 0 ^^^ 2 ^ k < 256 := by
    have h2k : 2 ^ k < 256 := by
      calc 2 ^ k < 2 ^ 8 := Nat.pow_lt_pow_right (by norm_num) hk
      _ = 256 := by norm_num
    exact @Nat.xor_lt_two_pow _ _ 8 hblt h2k
  have hcb : (mkDatagram t s).getD j 0 ^^^ 2 ^ k ≠ (mkDatagram t s).getD j 0 := by
    intro hcb
    have h2 := congrArg ((mkDatagram t s).getD j 0 ^^^ ·) hcb
    simp only [← Nat.xor_assoc, Nat.xor_self, Nat.zero_xor] at h2
    have : (0 : Nat) < 2 ^ k := Nat.pos_pow_of_pos k (by norm_num)
    omega
  have hset : flipBit (mkDatagram t s) j k =
      (mkDatagram t s).take j ++
        ((mkDatagram t s).getD j 0 ^^^ 2 ^ k) :: (mkDatagram t s).drop (j + 1) := by
    rw [flipBit, List.set_eq_take_append_cons_drop, if_pos hjlt]
  have hdec : mkDatagram t s =
      (mkDatagram t s).take j ++
        (mkDatagram t s).getD j 0 :: (mkDatagram t s).drop (j + 1) := by
    conv_lhs => rw [← List.take_append_drop j (mkDatagram t s)]
    rw [List.drop_eq_getElem_cons hjlt, ← List.getD_eq_getElem (mkDatagram t s) 0 hjlt]
  have hlen' : (flipBit (mkDatagram t s) j k).length = s.length + 8 := by
    rw [flipBit, List.length_set, hL]
  have hw : be4 ((mkDatagram t s).take 4) = t * 0x1000000 + (s.length + 8) := by
    rw [mkDatagram_take4, be4_be4Bytes _ (by omega)]
  have hb1 : (mkDatagram t s).getD 1 0 < 256 := getD_mem_lt _ 1 (by omega) hbytes
  have hb2 : (mkDatagram t s).getD 2 0 < 256 := getD_mem_lt _ 2 (by omega) hbytes
  have hb3 : (mkDatagram t s).getD 3 0 < 256 := getD_mem_lt _ 3 (by omega) hbytes
  have hmod : be4 ((flipBit (mkDatagram t s) j k).take 4) % 0x1000000 = s.length + 8 := by
    rcases hjh with hj0 | hj4
    · subst hj0
      rw [be4_take4]
      have hb0 : (mkDatagram t s).getD 0 0 < 256 := getD_mem_lt _ 0 (by omega) hbytes
      have hbe : be4 (mkDatagram t s) =
          (mkDatagram t s).getD 0 0 * 0x1000000 + (mkDatagram t s).getD 1 0 * 0x10000 +
            (mkDatagram t s).getD 2 0 * 0x100 + (mkDatagram t s).getD 3 0 := rfl
      have hbe' : be4 (flipBit (mkDatagram t s) 0 k) =
          ((mkDatagram t s).getD 0 0 ^^^ 2 ^ k) * 0x1000000 +
            (mkDatagram t s).getD 1 0 * 0x10000 +
            (mkDatagram t s).getD 2 0 * 0x100 + (mkDatagram t s).getD 3 0 := by
        unfold be4 flipBit
        simp only [List.getD_eq_getElem?_getD, List.getElem?_set]
        norm_num
        rw [if_pos (by omega)]
        simp [List.getD_eq_getElem?_getD]
      rw [be4_take4] at hw
      rw [hbe] at hw
      rw [hbe']
      omega
    · have htake : (flipBit (mkDatagram t s) j k).take 4 = (mkDatagram t s).take 4 := by
        rw [hset]
        rw [List.take_append_of_le_length (by
          rw [List.length_take]; omega)]
        rw [List.take_take]
        rw [show min 4 j = 4 from by omega]
      rw [htake, hw]
      omega
  have hcrc : crc32mpeg (flipBit (mkDatagram t s) j k) ≠ 0 := by
    have h0 : crc32mpeg (mkDatagram t s) = 0 := crc32mpeg_mkDatagram t s ht hs hlen
    have hne := @crc_single_byte_ne
      ((mkDatagram t s).take j) ((mkDatagram t s).drop (j + 1)) _ _
      (fun x hx => hbytes x (List.mem_of_mem_take hx))
      (fun x hx => hbytes x (List.mem_of_mem_drop hx))
      hclt hblt hcb
    rw [← hdec, h0] at hne
    rw [hset]
    exact hne
  unfold ldpParse
  rw [if_neg (by omega)]
  simp only [hmod, hlen']
  rw [if_neg (by omega)]
  rw [show (flipBit (mkDatagram t s) j k).take (s.length + 8) =
      flipBit (mkDatagram t s) j k from by rw [← hlen']; exact List.take_length _]
  rw [if_pos hcrc]

/-- C3 (amended): L4 CRC round trip.  For every byte string s with
len(s) + 8 < 2^24 (so that the length field fits the low 24 header
bits) and every type t < 256, parsing the built datagram succeeds and
yields type t and payload s; and flipping any single bit of the
datagram outside the 24-bit length field (the type byte or any byte
from offset 4 on) makes parsing fail with MalformedCRC.  A flip inside
the length field need not fail that way (see the counterexample), and a
payload with len(s) + 8 ≥ 2^24 cannot be framed at all. -/
theorem c3_crc_roundtrip_amended (t : Nat) (s : List Nat) (ht : t < 256)
    (hs : ∀ b ∈ s, b < 256) (hlen : s.length + 8 < 0x1000000) :
    ldpParse (mkDatagram t s) = .ok (t, s) ∧
    (∀ j k, j < s.length + 8 → (j = 0 ∨ 4 ≤ j) → k < 8 →
      ldpParse (flipBit (mkDatagram t s) j k) = .error .badChecksum) :=
  ⟨ldpParse_mkDatagram t s ht hs hlen,
   fun j k hj hjh hk => ldpParse_flipBit t s ht hs hlen j k hj hjh hk⟩

/-- Witness for c3_crc_roundtrip_amended on a concrete datagram of
type 0x81 with payload [1, 2, 3], flipping bit 0 of byte 5. -/
theorem c3_crc_roundtrip_witness :
    ldpParse (mkDatagram 0x81 [1, 2, 3]) = .ok (0x81, [1, 2, 3]) ∧
    ldpParse (flipBit (mkDatagram 0x81 [1, 2, 3]) 5 0) = .error .badChecksum :=
  ⟨(c3_crc_roundtrip_amended 0x81 [1, 2, 3] (by norm_num)
      (by intro b hb; fin_cases hb <;> norm_num) (by norm_num)).1,
   (c3_crc_roundtrip_amended 0x81 [1, 2, 3] (by norm_num)
      (by intro b hb; fin_cases hb <;> norm_num) (by norm_num)).2 5 0
      (by norm_num) (by norm_num) (by norm_num)⟩

set_option maxRecDepth 4096 in
/-- Counterexample to C3 as stated.  First, the bound len(s) < 2^24 is
too generous: for the all-zero payload of length 2^24 − 8 the length
field of the claimed header packing is 2^24, which overflows the low 24
bits into the type field, and parsing fails with MalformedCRC instead
of returning (t, s).  Second, flipping a bit of the length field (bit 0
of byte 1 of a datagram with empty payload) makes parsing fail with
MalformedLength, not MalformedCRC. -/
theorem c3_crc_roundtrip_counterexample :
    ldpParse (mkDatagram 0 (List.replicate (0x1000000 - 8) 0)) =
      .error .badChecksum ∧
    ldpParse (flipBit (mkDatagram 0 []) 1 0) = .error .badLength := by
  constructor
  · have hrep : (List.replicate (0x1000000 - 8) (0 : Nat)).length = 0x1000000 - 8 :=
      List.length_replicate _ _
    have hL : (mkDatagram 0 (List.replicate (0x1000000 - 8) 0)).length = 0x1000000 := by
      rw [mkDatagram_length, hrep]
    have hhead : be4 ((mkDatagram 0 (List.replicate (0x1000000 - 8) 0)).take 4) =
        0x1000000 := by
      rw [mkDatagram_take4, hrep]
      rw [show 0 * 0x1000000 + (0x1000000 - 8 + 8) = 0x1000000 from by norm_num]
      exact be4_be4Bytes _ (by norm_num)
    unfold ldpParse
    rw [if_neg (by omega)]
    simp only [hhead, show (0x1000000 : Nat) / 0x1000000 = 1 from by norm_num,
      show (0x1000000 : Nat) % 0x1000000 = 0 from by norm_num]
    rw [if_neg (by omega)]
    rw [List.take_zero]
    rw [if_pos (by decide)]
  · decide

theorem drawRowLoop_stuck : ∀ fuel v, drawRowLoop fuel v [[0]] 1 0 = none := by
  intro fuel
  induction fuel with
  | zero => intro v; rfl
  | succ f ih =>
    intro v
    simp only [drawRowLoop, Nat.mod_one]
    rw [if_pos (by decide)]
    exact ih (pmNext v)

theorem ldpcColRound_1221_first (f : Nat) :
    ldpcColRound (f + 1) 2 1 0 ⟨[[]], [0, 0], 0, 1⟩ =
      some ⟨[[0]], [0, 0], 1, 16807⟩ := by
  have hsearch : searchFirst [0, 0] [[]] 0 0 2 = 0 := by decide
  have hdraw : drawPLoop (f + 1) 1 [0, 0] [[]] 2 0 0 = some (1, 16807) := by
    simp only [drawPLoop, pmNext]
    norm_num
  simp only [ldpcColRound, hsearch, hdraw]
  norm_num [appendAt]

theorem ldpcColRound_1221_second (f : Nat) :
    ldpcColRound (f + 1) 2 1 0 ⟨[[0]], [0, 0], 1, 16807⟩ = none := by
  have hsearch : searchFirst [0, 0] [[0]] 0 1 2 = 2 := by decide
  simp only [ldpcColRound, hsearch]
  rw [if_pos (by norm_num)]
  rw [drawRowLoop_stuck]

theorem fecInitMatrix_1221_diverges : ∀ fuel, fecInitMatrix fuel 1 2 2 1 = none := by
  intro fuel
  cases fuel with
  | zero => rfl
  | succ f =>
    show fecInitMatrix (f + 1) 1 2 2 1 = none
    simp only [fecInitMatrix,
      show List.range (1 * 2) = [0, 1] from rfl,
      show List.range 1 = [0] from rfl,
      show List.range 2 = [0, 1] from rfl,
      show (2 : Nat) - 1 = 1 from rfl,
      show List.replicate 1 ([] : List Nat) = [[]] from rfl,
      show ([0, 1] : List Nat).map (· % 1) = [0, 0] from by decide]
    have hcons : ∀ (g : LdpcBuild → Nat → Option LdpcBuild) s a (l : List Nat),
        List.foldlM g s (a :: l) = g s a >>= fun s2 => List.foldlM g s2 l :=
      fun g s a l => rfl
    have hnil : ∀ (g : LdpcBuild → Nat → Option LdpcBuild) s,
        List.foldlM g s ([] : List Nat) = pure s := fun g s => rfl
    simp only [show (1 : Nat) * 2 = 2 from rfl, hcons, hnil]
    rw [ldpcColRound_1221_first f]
    simp only [Option.bind_eq_bind, Option.some_bind]
    rw [ldpcColRound_1221_second f]
    rfl

/-- Counterexample to C5 as stated: for the parameter tuple
(k, n, N1, seed) = (1, 2, 2, 1), which satisfies n > k ≥ 1 and N1 ≥ 1,
the construction does not terminate: in the second round for the single
column, the only row already contains it, and the fallback draw loop
"row = next(prng) % (n-k)" can only ever propose that same row, so the
Python while loop runs forever.  In the fuelled embedding, no amount of
fuel produces a matrix. -/
theorem c5_row_degree_counterexample :
    ¬ ∃ fuel, (fecInitMatrix fuel 1 2 2 1).isSome := by
  rintro ⟨fuel, hf⟩
  rw [fecInitMatrix_1221_diverges fuel] at hf
  exact Bool.noConfusion hf

theorem nodup_append_singleton {l : List Nat} {c : Nat} (hn : l.Nodup) (hc : c ∉ l) :
    (l ++ [c]).Nodup :=
  List.Nodup.append hn (List.nodup_singleton c)
    (fun a ha hb => by simp at hb; subst hb; exact hc ha)

theorem drawRowLoop_spec {fuel v : Nat} {mat : List (List Nat)} {m col row v1 : Nat}
    (h : drawRowLoop fuel v mat m col = some (row, v1)) :
    col ∉ mat.getD row [] := by
  induction fuel generalizing v with
  | zero => exact absurd h (by simp [drawRowLoop])
  | succ f ih =>
    rw [drawRowLoop] at h
    by_cases hc : col ∈ mat.getD (pmNext v % m) []
    · rw [if_pos hc] at h
      exact ih h
    · rw [if_neg hc] at h
      injection h with h1
      injection h1 with h2 h3
      subst h2
      exact hc

theorem drawPLoop_spec {fuel v : Nat} {ptbl : List Nat} {mat : List (List Nat)}
    {kn1 t col p v1 : Nat}
    (h : drawPLoop fuel v ptbl mat kn1 t col = some (p, v1)) :
    col ∉ mat.getD (ptbl.getD p 0) [] := by
  induction fuel generalizing v with
  | zero => exact absurd h (by simp [drawPLoop])
  | succ f ih =>
    rw [drawPLoop] at h
    by_cases hc : col ∈ mat.getD (ptbl.getD (pmNext v % (kn1 - t) + t) 0) []
    · rw [if_pos hc] at h
      exact ih h
    · rw [if_neg hc] at h
      injection h with h1
      injection h1 with h2 h3
      subst h2
      exact hc

theorem drawColLoop_spec {fuel v : Nat} {row : List Nat} {k c v1 : Nat} (hk : 0 < k)
    (h : drawColLoop fuel v row k = some (c, v1)) :
    c ∉ row ∧ c < k := by
  induction fuel generalizing v with
  | zero => exact absurd h (by simp [drawColLoop])
  | succ f ih =>
    rw [drawColLoop] at h
    by_cases hc : pmNext v % k ∈ row
    · rw [if_pos hc] at h
      exact ih h
    · rw [if_neg hc] at h
      injection h with h1
      injection h1 with h2 h3
      subst h2
      exact ⟨hc, Nat.mod_lt _ hk⟩

/-- Row invariant of the matrix construction: every row is duplicate
free with all entries below k. -/
def MatInv (k : Nat) (mat : List (List Nat)) : Prop :=
  ∀ row ∈ mat, row.Nodup ∧ ∀ c ∈ row, c < k

theorem matInv_appendAt {k : Nat} {mat : List (List Nat)} {r col : Nat}
    (hinv : MatInv k mat) (hcol : col < k) (hnot : col ∉ mat.getD r []) :
    MatInv k (appendAt mat r col) := by
  intro row hrow
  rcases List.mem_or_eq_of_mem_set hrow with h | h
  · exact hinv row h
  · subst h
    have hbase : (mat.getD r []).Nodup ∧ ∀ c ∈ mat.getD r [], c < k := by
      by_cases hr : r < mat.length
      · rw [List.getD_eq_getElem mat [] hr]
        exact hinv _ (List.getElem_mem hr)
      · rw [List.getD_eq_default mat [] (by omega)]
        exact ⟨List.nodup_nil, by simp⟩
    constructor
    · exact nodup_append_singleton hbase.1 hnot
    · intro c hc
      rcases List.mem_append.mp hc with h | h
      · exact hbase.2 c h
      · simp at h
        subst h
        exact hcol

theorem ldpcColRound_matInv {fuel kn1 m col : Nat} {st st' : LdpcBuild}
    (hcol : col < k) (hinv : MatInv k st.mat)
    (h : ldpcColRound fuel kn1 m col st = some st') : MatInv k st'.mat := by
  rw [ldpcColRound] at h
  by_cases hi : kn1 ≤ searchFirst st.ptbl st.mat col st.t kn1
  · rw [if_pos hi] at h
    rcases hdr : drawRowLoop fuel st.v st.mat m col with _ | ⟨row, v1⟩
    · rw [hdr] at h
      exact absurd h (by simp)
    · rw [hdr] at h
      injection h with h1
      subst h1
      exact matInv_appendAt hinv hcol (drawRowLoop_spec hdr)
  · rw [if_neg hi] at h
    rcases hdp : drawPLoop fuel st.v st.ptbl st.mat kn1 st.t col with _ | ⟨p, v1⟩
    · rw [hdp] at h
      exact absurd h (by simp)
    · rw [hdp] at h
      injection h with h1
      subst h1
      exact matInv_appendAt hinv hcol (drawPLoop_spec hdp)

theorem foldlM_build_inv (P : LdpcBuild → Prop) (g : LdpcBuild → Nat → Option LdpcBuild)
    (l : List Nat) (hpres : ∀ st a, a ∈ l → P st → ∀ st', g st a = some st' → P st') :
    ∀ st st', P st → List.foldlM g st l = some st' → P st' := by
  induction l with
  | nil =>
    intro st st' hst h
    have : (pure st : Option LdpcBuild) = some st' := h
    injection this with h1
    subst h1
    exact hst
  | cons a t ih =>
    intro st st' hst h
    have hstep : List.foldlM g st (a :: t) =
        g st a >>= fun s2 => List.foldlM g s2 t := rfl
    rw [hstep] at h
    rcases hg : g st a with _ | s1
    · rw [hg] at h
      exact absurd h (by simp)
    · rw [hg] at h
      simp only [Option.bind_eq_bind, Option.some_bind] at h
      exact ih (fun st a ha => hpres st a (by simp [ha])) s1 st'
        (hpres st a (by simp) hst s1 hg) h

theorem ldpcPostRow_spec {fuel k : Nat} {row row1 : List Nat} {v v1 : Nat} (hk : 0 < k)
    (hrow : row.Nodup ∧ ∀ c ∈ row, c < k)
    (h : ldpcPostRow fuel k row v = some (row1, v1)) :
    row1.Nodup ∧ 2 ≤ row1.length ∧ ∀ c ∈ row1, c < k := by
  rw [ldpcPostRow] at h
  rcases hlen : row.length with _ | _ | d
  · have hnil : row = [] := List.length_eq_zero.mp hlen
    subst hnil
    simp only [List.length_nil, if_pos rfl, if_true] at h
    norm_num at h
    rcases hdc : drawColLoop fuel (pmNext v) [pmNext v % k] k with _ | ⟨c, v2⟩
    · rw [hdc] at h
      exact absurd h (by simp)
    · rw [hdc] at h
      injection h with h1
      injection h1 with h2 h3
      subst h2
      obtain ⟨hnc, hck⟩ := drawColLoop_spec hk hdc
      refine ⟨?_, by simp, ?_⟩
      · simp only [List.mem_singleton] at hnc
        simp [hnc]
        omega
      · intro e he
        simp only [List.cons_append, List.nil_append, List.mem_cons,
          List.mem_singleton] at he
        rcases he with he | he | he
        · subst he
          exact Nat.mod_lt _ hk
        · subst he
          exact hck
        · simp at he
  · simp only [hlen, if_neg (by omega : ¬ (1 : Nat) = 0), if_pos (by omega : (1 : Nat) ≤ 1)] at h
    rcases hdc : drawColLoop fuel v row k with _ | ⟨c, v2⟩
    · rw [hdc] at h
      exact absurd h (by simp)
    · rw [hdc] at h
      injection h with h1
      injection h1 with h2 h3
      subst h2
      obtain ⟨hnc, hck⟩ := drawColLoop_spec hk hdc
      refine ⟨nodup_append_singleton hrow.1 hnc, by simp [hlen], ?_⟩
      intro e he
      rcases List.mem_append.mp he with he | he
      · exact hrow.2 e he
      · simp at he
        subst he
        exact hck
  · simp only [hlen, if_neg (by omega : ¬ d + 2 = 0), if_neg (by omega : ¬ d + 2 ≤ 1)] at h
    injection h with h1
    injection h1 with h2 h3
    subst h2
    exact ⟨hrow.1, by omega, hrow.2⟩

theorem ldpcPostPass_spec {fuel k : Nat} (hk : 0 < k) :
    ∀ (mats : List (List Nat)) (v : Nat) (out : List (List Nat)) (v2 : Nat),
    (∀ row ∈ mats, row.Nodup ∧ ∀ c ∈ row, c < k) →
    ldpcPostPass fuel k mats v = some (out, v2) →
    ∀ row ∈ out, row.Nodup ∧ 2 ≤ row.length ∧ ∀ c ∈ row, c < k := by
  intro mats
  induction mats with
  | nil =>
    intro v out v2 _ h
    rw [ldpcPostPass] at h
    injection h with h1
    injection h1 with h2 h3
    subst h2
    simp
  | cons r rest ih =>
    intro v out v2 hin h
    rw [ldpcPostPass] at h
    split at h
    · exact absurd h (by simp)
    case h_2 r1 w1 hpr =>
      split at h
      · exact absurd h (by simp)
      case h_2 rest1 w2 hpp =>
        injection h with h1
        injection h1 with h2 h3
        subst h2
        intro row hrow
        rcases List.mem_cons.mp hrow with hr | hr
        · subst hr
          exact ldpcPostRow_spec hk (hin r (by simp)) hpr
        · exact ih w1 rest1 w2 (fun x hx => hin x (by simp [hx])) hpp row hr

/-- C5 (amended): LDPC row degree.  Whenever the parity-check-matrix
construction for parameters (k, n, N1, seed) with n > k ≥ 1 returns a
matrix (for any fuel bound on its draw loops), every row of that matrix
holds at least two distinct column indices, all in [0, k).  The
termination half of the claim is false: the construction can loop
forever (see the counterexample), so it is guaranteed only conditional
on termination. -/
theorem c5_row_degree_amended (fuel k n n1 seed : Nat) (hk : 1 ≤ k) (_hkn : k < n)
    (M : List (List Nat)) (h : fecInitMatrix fuel k n n1 seed = some M) :
    ∀ row ∈ M, row.Nodup ∧ 2 ≤ row.length ∧ ∀ c ∈ row, c < k := by
  simp only [fecInitMatrix] at h
  split at h
  · exact absurd h (by simp)
  case h_2 st hfold =>
    split at h
    · exact absurd h (by simp)
    case h_2 out v2 hpp =>
      injection h with h1
      subst h1
      have hinv0 : MatInv k (List.replicate (n - k) ([] : List Nat)) := by
        intro row hrow
        rw [List.eq_of_mem_replicate hrow]
        exact ⟨List.nodup_nil, by simp⟩
      have hinv : MatInv k st.mat := by
        refine foldlM_build_inv (fun s => MatInv k s.mat) _ (List.range k) ?_ _ st hinv0 hfold
        intro s col hcol hP st' hst'
        have hcolk : col < k := List.mem_range.mp hcol
        refine foldlM_build_inv (fun s => MatInv k s.mat) _ (List.range n1) ?_ s st' hP hst'
        intro s2 _ _ hP2 st2 hst2
        exact ldpcColRound_matInv hcolk hP2 hst2
      exact ldpcPostPass_spec hk st.mat st.v out v2 hinv hpp

/-- Witness for c5_row_degree_amended: the construction for
(k, n, N1, seed) = (2, 4, 2, 1) terminates with matrix [[0, 1], [0, 1]],
and the amended theorem yields the degree and range facts for its rows. -/
theorem c5_row_degree_witness :
    ([0, 1] : List Nat).Nodup ∧ 2 ≤ ([0, 1] : List Nat).length ∧ 0 < 2 ∧ 1 < 2 := by
  have h := c5_row_degree_amended 50 2 4 2 1 (by norm_num) (by norm_num)
    [[0, 1], [0, 1]] (by decide) [0, 1] (by simp)
  exact ⟨h.1, h.2.1, h.2.2 0 (by simp), h.2.2 1 (by simp)⟩

theorem except_bind_error {ε α β : Type} (e : ε) (f : α → Except ε β) :
    (Except.error e >>= f) = Except.error e := rfl

theorem except_bind_ok {ε α β : Type} (a : α) (f : α → Except ε β) :
    (Except.ok a >>= f) = f a := rfl

theorem intOfText_none : intOfText none = .error .attributeError := rfl

theorem textOfChild_none : textOfChild none = .error .attributeError := rfl

theorem textOfChild_some (e : XmlElem) : textOfChild (some e) = .ok e.text := rfl

theorem fileInit_error (xml : XmlElem)
    (h : xml.findChild "id" = none ∨ xml.findChild "path" = none ∨
         xml.findChild "hash" = none ∨ xml.findChild "size" = none ∨
         xml.findChild "block_size" = none) :
    ∃ e, fileInit xml = .error e := by
  rcases hid : xml.findChild "id" with _ | eid
  · exact ⟨.attributeError, by
      simp [fileInit, hid, intOfText_none, except_bind_error]⟩
  rcases hvid : intOfText (some eid) with e | vid
  · exact ⟨e, by simp [fileInit, hid, hvid, except_bind_error]⟩
  rcases hpath : xml.findChild "path" with _ | epath
  · exact ⟨.attributeError, by
      simp [fileInit, hid, hvid, hpath, textOfChild_none, except_bind_error, except_bind_ok]⟩
  rcases hhash : xml.findChild "hash" with _ | ehash
  · exact ⟨.attributeError, by
      simp [fileInit, hid, hvid, hpath, hhash, textOfChild_none, textOfChild_some,
        except_bind_error, except_bind_ok]⟩
  rcases hsize : xml.findChild "size" with _ | esize
  · exact ⟨.attributeError, by
      simp [fileInit, hid, hvid, hpath, hhash, hsize, textOfChild_some, intOfText_none,
        except_bind_error, except_bind_ok]⟩
  rcases hvsize : intOfText (some esize) with e | vsize
  · exact ⟨e, by
      simp [fileInit, hid, hvid, hpath, hhash, hsize, hvsize, textOfChild_some,
        except_bind_error, except_bind_ok]⟩
  rcases hbs : xml.findChild "block_size" with _ | ebs
  · exact ⟨.attributeError, by
      simp [fileInit, hid, hvid, hpath, hhash, hsize, hvsize, hbs, textOfChild_some,
        intOfText_none, except_bind_error, except_bind_ok]⟩
  rcases h with h | h | h | h | h <;> simp_all

/-- C6 (amended): a description packet whose XML body is missing one of
the required children id, path, hash, size or block_size leaves the
service's id → file map unchanged, but the handler raises an uncaught
Python exception (AttributeError on the missing child, or an earlier
int-conversion error), so processing aborts rather than continuing:
nothing in free-outernet.py catches exceptions around router.route. -/
theorem c6_missing_child_amended (st : ServiceState) (tree : XmlElem)
    (h : tree.findChild "id" = none ∨ tree.findChild "path" = none ∨
         tree.findChild "hash" = none ∨ tree.findChild "size" = none ∨
         tree.findChild "block_size" = none) :
    ∃ e, descriptionPacket st (.ok tree) = ⟨st, [], .error e⟩ := by
  obtain ⟨e, he⟩ := fileInit_error tree h
  exact ⟨e, by simp [descriptionPacket, he]⟩

/-- Witness for c6_missing_child_amended at a concrete state and a tree
whose only child is path. -/
theorem c6_missing_child_witness :
    ∃ e, descriptionPacket ⟨fun _ => none, "out", none⟩
        (.ok ⟨"file", none, [⟨"path", some "p", []⟩]⟩) =
      ⟨⟨fun _ => none, "out", none⟩, [], .error e⟩ :=
  c6_missing_child_amended _ _ (Or.inl rfl)

/-- Counterexample to C6 as stated: for a description packet whose
well-formed XML body is missing the id child, the id → file map is
indeed left unchanged, but processing does not continue: the handler
raises AttributeError (None.text), which nothing catches, so the
process aborts. -/
theorem c6_missing_child_counterexample :
    descriptionPacket ⟨fun _ => none, "out", none⟩
        (.ok ⟨"file", none, [⟨"path", some "p", []⟩]⟩) =
      ⟨⟨fun _ => none, "out", none⟩, [], .error .attributeError⟩ := rfl

/-- C10: an announced file of size 0 is never delivered.  When
File.reconstruct succeeds with empty contents, the service's
__try_reconstruct treats the falsy result exactly like a failed
reconstruction: it returns early, so no file is written, the entry
stays in the id → file map (updated in place by the reconstruct call),
and the last-file reference is left untouched. -/
theorem c10_empty_file_not_delivered (fuel : Nat) (st : ServiceState) (fid : Int)
    (f f1 : File) (hf : st.files fid = some f)
    (hrec : File.reconstruct fuel f = (f1, .ok (some []))) :
    tryReconstruct fuel st fid = ⟨st.setFile fid (some f1), [], .ok ()⟩ ∧
    (tryReconstruct fuel st fid).state.files fid = some f1 ∧
    (tryReconstruct fuel st fid).state.lastFile = st.lastFile ∧
    (tryReconstruct fuel st fid).writes = [] := by
  have hmain : tryReconstruct fuel st fid = ⟨st.setFile fid (some f1), [], .ok ()⟩ := by
    simp only [tryReconstruct, hf, hrec]
    norm_num [pyFalsyBytes]
  refine ⟨hmain, ?_, ?_, ?_⟩ <;> rw [hmain] <;> simp [ServiceState.setFile]

set_option maxRecDepth 100000 in
/-- Witness for c10_empty_file_not_delivered: a concrete size-0 file
whose hash is the SHA-256 of the empty string; its reconstruction
succeeds with empty contents and the service performs no write, keeps
the map entry and keeps the last-file hint. -/
theorem c10_empty_file_not_delivered_witness :
    (tryReconstruct 1
        ⟨fun i => if i = 2 then
            some ⟨2, some "z",
              some "e3b0c44298fc1c149afbf4c8996fb92427ae41e4649b934ca495991b7852b855",
              0, 2, 0, none, none, [], []⟩
          else none, "out", some 5⟩ 2).writes = [] ∧
    ((tryReconstruct 1
        ⟨fun i => if i = 2 then
            some ⟨2, some "z",
              some "e3b0c44298fc1c149afbf4c8996fb92427ae41e4649b934ca495991b7852b855",
              0, 2, 0, none, none, [], []⟩
          else none, "out", some 5⟩ 2).state.files 2).isSome ∧
    (tryReconstruct 1
        ⟨fun i => if i = 2 then
            some ⟨2, some "z",
              some "e3b0c44298fc1c149afbf4c8996fb92427ae41e4649b934ca495991b7852b855",
              0, 2, 0, none, none, [], []⟩
          else none, "out", some 5⟩ 2).state.lastFile = some 5 := by
  have h := c10_empty_file_not_delivered 1
    ⟨fun i => if i = 2 then
        some ⟨2, some "z",
          some "e3b0c44298fc1c149afbf4c8996fb92427ae41e4649b934ca495991b7852b855",
          0, 2, 0, none, none, [], []⟩
      else none, "out", some 5⟩ 2
    ⟨2, some "z",
      some "e3b0c44298fc1c149afbf4c8996fb92427ae41e4649b934ca495991b7852b855",
      0, 2, 0, none, none, [], []⟩
    ⟨2, some "z",
      some "e3b0c44298fc1c149afbf4c8996fb92427ae41e4649b934ca495991b7852b855",
      0, 2, 0, none, none, [], []⟩
    (by norm_num) (by decide)
  refine ⟨h.2.2.2, ?_, ?_⟩
  · rw [h.2.1]
    rfl
  · rw [h.2.2.1]

/-- C1 (amended): the hash gate is case-SENSITIVE.  For a file whose
assembly succeeds with contents of the announced length,
File.reconstruct delivers the contents exactly when the announced hash
equals (as a Python string, case-sensitively) the SHA-256 hex digest of
the contents; on any mismatch it fails with None, and then the service
writes nothing and keeps the map entry. -/
theorem c1_hash_gate_amended (fuel : Nat) (f f1 : File) (contents : List Nat)
    (hasm : File.assemble fuel f = (f1, .ok (some contents)))
    (hlen : (contents.length : Int) = f1.size) :
    ((File.reconstruct fuel f).2 = .ok (some contents) ↔
      f1.hash = some (sha256hex contents)) ∧
    (f1.hash ≠ some (sha256hex contents) →
      File.reconstruct fuel f = (f1, .ok none)) ∧
    (∀ st fid, st.files fid = some f → f1.hash ≠ some (sha256hex contents) →
      (tryReconstruct fuel st fid).writes = [] ∧
      (tryReconstruct fuel st fid).state.files fid = some f1) := by
  have hrec : File.reconstruct fuel f =
      if some (sha256hex contents) ≠ f1.hash then (f1, .ok none)
      else (f1, .ok (some contents)) := by
    simp only [File.reconstruct, hasm]
    rw [if_neg (by rw [hlen]; exact fun h => h rfl)]
  by_cases hh : f1.hash = some (sha256hex contents)
  · have hrec2 : File.reconstruct fuel f = (f1, .ok (some contents)) := by
      rw [hrec, if_neg (by rw [hh]; exact fun h => h rfl)]
    refine ⟨?_, fun hne => absurd hh hne, fun st fid _ hne => absurd hh hne⟩
    rw [hrec2]
    exact ⟨fun _ => hh, fun _ => rfl⟩
  · have hrec2 : File.reconstruct fuel f = (f1, .ok none) := by
      rw [hrec, if_pos (fun h => hh h.symm)]
    refine ⟨?_, fun _ => hrec2, fun st fid hf _ => ?_⟩
    · rw [hrec2]
      constructor
      · intro h
        exact absurd (Except.ok.inj h) (by simp)
      · intro h
        exact absurd h hh
    · have hmain : tryReconstruct fuel st fid =
          ⟨st.setFile fid (some f1), [], .ok ()⟩ := by
        simp only [tryReconstruct, hf, hrec2]
        norm_num [pyFalsyBytes]
      rw [hmain]
      exact ⟨rfl, by simp [ServiceState.setFile]⟩

set_option maxRecDepth 100000 in
/-- Witness for c1_hash_gate_amended: a one-block file holding the byte
string "a" with the lowercase digest announced is delivered. -/
theorem c1_hash_gate_witness :
    (File.reconstruct 1
      ⟨1, some "a.txt",
        some "ca978112ca1bbdcafac231b39a23dc4da786eff8147c4e72b9807785afee48bb",
        1, 1, 1, none, none, [some [97]], []⟩).2 = .ok (some [97]) :=
  ((c1_hash_gate_amended 1
      ⟨1, some "a.txt",
        some "ca978112ca1bbdcafac231b39a23dc4da786eff8147c4e72b9807785afee48bb",
        1, 1, 1, none, none, [some [97]], []⟩
      ⟨1, some "a.txt",
        some "ca978112ca1bbdcafac231b39a23dc4da786eff8147c4e72b9807785afee48bb",
        1, 1, 1, none, none, [some [97]], []⟩
      [97] (by decide) (by decide)).1).mpr (by decide)

set_option maxRecDepth 100000 in
/-- Counterexample to C1 as stated: the same one-block file "a" with
the digest announced in UPPERCASE hex.  The digest matches the
announced hash up to letter case (lowercasing the announced hash gives
exactly the digest), yet File.reconstruct refuses to deliver the
contents: the comparison at files.py line 271 is plain string
equality, hence case-sensitive. -/
theorem c1_hash_gate_counterexample :
    File.assemble 1
      ⟨1, some "a.txt",
        some "CA978112CA1BBDCAFAC231B39A23DC4DA786EFF8147C4E72B9807785AFEE48BB",
        1, 1, 1, none, none, [some [97]], []⟩ =
      (⟨1, some "a.txt",
        some "CA978112CA1BBDCAFAC231B39A23DC4DA786EFF8147C4E72B9807785AFEE48BB",
        1, 1, 1, none, none, [some [97]], []⟩, .ok (some [97])) ∧
    (List.map Char.toLower
      (String.data ((File.hash ⟨1, some "a.txt",
        some "CA978112CA1BBDCAFAC231B39A23DC4DA786EFF8147C4E72B9807785AFEE48BB",
        1, 1, 1, none, none, [some [97]], []⟩).getD ""))) =
      String.data (sha256hex [97]) ∧
    (File.reconstruct 1
      ⟨1, some "a.txt",
        some "CA978112CA1BBDCAFAC231B39A23DC4DA786EFF8147C4E72B9807785AFEE48BB",
        1, 1, 1, none, none, [some [97]], []⟩).2 = .ok none := by
  refine ⟨by decide, by decide, by decide⟩

/-- be4 only reads the first four bytes, which an appended tail leaves
in place. -/
theorem be4_append_bytes (w : Nat) (rest : List Nat) :
    be4 (be4Bytes w ++ rest) = be4 (be4Bytes w) := rfl

/-- be2 only reads the first two bytes, which an appended tail leaves
in place. -/
theorem be2_append_bytes (w : Nat) (rest : List Nat) :
    be2 (be2Bytes w ++ rest) = be2 (be2Bytes w) := rfl

/-- be2 inverts be2Bytes on 16-bit values. -/
theorem be2_be2Bytes (w : Nat) (hw : w < 0x10000) : be2 (be2Bytes w) = w := by
  simp [be2, be2Bytes]
  omega

/-- C2 (amended): handler invocations are NOT total.  (a) A data-block
packet whose block_number is at least the file's slot count drives
push_block into an uncaught IndexError, which propagates out of the
handler (free-outernet.py wraps only the OP and LDP layers in
try/except ValueError, never router.route).  (b) A description packet
whose body fails XML parsing likewise propagates the parse error with
the service state untouched. -/
theorem c2_no_abort_amended :
    (∀ fuel st (fid bn : Nat) block f,
      fid < 0x100000000 → bn < 0x10000 →
      st.files (fid : Int) = some f → st.lastFile = none →
      f.blocks.length ≤ bn →
      (blockPacket fuel st (be4Bytes fid ++ be2Bytes bn ++ block)).out =
        .error .indexError) ∧
    (∀ st e, descriptionPacket st (.error e) = ⟨st, [], .error e⟩) := by
  constructor
  · intro fuel st fid bn block f hfid hbn hf hlast hge
    rw [List.append_assoc]
    have h6 : ¬ ((be4Bytes fid ++ (be2Bytes bn ++ block)).length < 6) := by
      simp [be4Bytes, be2Bytes]
    have hfid2 : ((be4 (be4Bytes fid ++ (be2Bytes bn ++ block)) : Nat) : Int) =
        (fid : Int) := by
      rw [be4_append_bytes, be4_be4Bytes fid hfid]
    have hbn2 : be2 ((be4Bytes fid ++ (be2Bytes bn ++ block)).drop 4) = bn := by
      rw [show (be4Bytes fid ++ (be2Bytes bn ++ block)).drop 4 =
            be2Bytes bn ++ block from rfl,
          be2_append_bytes, be2_be2Bytes bn hbn]
    have hget : f.blocks.get? bn = none := List.get?_eq_none.mpr hge
    simp only [blockPacket, if_neg h6, hfid2, hf, hlast, hbn2,
               File.pushBlock, hget]
  · intro st e
    rfl

/-- Witness for c2_no_abort_amended: a service holding a one-slot file
with id 2 receives a block numbered 3: the handler ends in IndexError;
and a description packet whose XML failed to parse returns the parse
error with the state unchanged. -/
theorem c2_no_abort_witness :
    (blockPacket 1
      ⟨fun i => if i = 2 then
          some ⟨2, some "p", some "h", 1, 1, 1, none, none, [none], []⟩
        else none, "out", none⟩
      (be4Bytes 2 ++ be2Bytes 3 ++ [9])).out = .error .indexError ∧
    descriptionPacket ⟨fun _ => none, "out", none⟩ (.error .xmlParseError) =
      ⟨⟨fun _ => none, "out", none⟩, [], .error .xmlParseError⟩ :=
  ⟨c2_no_abort_amended.1 1
      ⟨fun i => if i = 2 then
          some ⟨2, some "p", some "h", 1, 1, 1, none, none, [none], []⟩
        else none, "out", none⟩
      2 3 [9] ⟨2, some "p", some "h", 1, 1, 1, none, none, [none], []⟩
      (by decide) (by decide) (by decide) rfl (by decide),
    c2_no_abort_amended.2 _ _⟩

/-- Counterexample to C2 as stated: a concrete data-block packet whose
block_number (1) equals the file's block count (1 slot) makes the
block handler raise IndexError — the handler invocation is not total,
and nothing catches the error around router.route. -/
theorem c2_no_abort_counterexample :
    (blockPacket 1
      ⟨fun i => if i = 1 then
          some ⟨1, some "p", some "h", 1, 1, 1, none, none, [none], []⟩
        else none, "out", none⟩
      [0, 0, 0, 1, 0, 1, 7]).out = .error .indexError := by decide

/-! ### Helper lemmas for the slot-length invariant (C7) -/

/-- Index i of an in-range block starts strictly before the end of the
file: b * i < a whenever i < ceil(a / b). -/
theorem mul_lt_of_lt_pyCeilDiv {a b : Int} (hb : 0 < b) {i : Nat}
    (hi : (i : Int) < pyCeilDiv a b) : b * (i : Int) < a := by
  have hfd : (-a).fdiv b = (-a) / b := Int.fdiv_eq_ediv _ (le_of_lt hb)
  rw [pyCeilDiv, hfd] at hi
  have h2 : (-a) / b < -(i : Int) := by omega
  have h3 : -a < -(i : Int) * b := (Int.ediv_lt_iff_lt_mul hb).mp h2
  nlinarith

/-- getD after set, split on whether the written index is read. -/
theorem getD_set_split (l : List (Option (List Nat))) (m : Nat)
    (v : Option (List Nat)) (i : Nat) :
    (l.set m v).getD i none = if m = i ∧ m < l.length then v else l.getD i none := by
  simp only [List.getD_eq_getElem?_getD, List.getElem?_set]
  by_cases h : m = i
  · subst h
    by_cases hm : m < l.length
    · simp [hm]
    · simp [hm, List.getElem?_eq_none (Nat.le_of_not_lt hm)]
  · simp [h]

/-- The unpadded size of an in-range block is positive and at most the
block size. -/
theorem unpaddedSize_bounds {size bs : Int} (hb : 0 < bs) (hs : 0 ≤ size)
    {i : Nat} (hi : (i : Int) < pyCeilDiv size bs) :
    0 < unpaddedSize size bs i ∧ unpaddedSize size bs i ≤ bs := by
  have h := mul_lt_of_lt_pyCeilDiv hb hi
  refine ⟨lt_min hb (by omega), min_le_left _ _⟩

/-- Length of the Python prefix slice l[:b] for a non-negative bound. -/
theorem pySliceTo_length (l : List Nat) (b : Int) (hb : 0 ≤ b) :
    (pySliceTo l b).length = min b.toNat l.length := by
  simp [pySliceTo, pySlice, Int.not_lt.mpr hb]

/-- A successful xor step keeps the accumulator length. -/
theorem xorInto_length {a s r : List Nat} (h : xorInto a s = .ok r) :
    r.length = a.length := by
  rw [xorInto] at h
  split at h
  · cases h
    simp_all [List.length_zip]
  · cases h

/-- A successful accumStep keeps the accumulator length. -/
theorem accumStep_length {blocks : List (Option (List Nat))} {size bs : Int}
    {m : Nat} {a : List Nat} {idx : Nat} {r : List Nat}
    (h : accumStep blocks size bs m a idx = .ok r) : r.length = a.length := by
  rw [accumStep] at h
  split at h
  · cases h
    rfl
  · split at h
    · cases h
    · cases h
    · exact xorInto_length h

/-- Unfolding foldlM over Except on the empty list. -/
theorem except_foldlM_nil {ε α β : Type} (f : β → α → Except ε β) (b : β) :
    List.foldlM f b [] = .ok b := rfl

/-- Unfolding foldlM over Except on a cons. -/
theorem except_foldlM_cons {ε α β : Type} (f : β → α → Except ε β) (b : β)
    (x : α) (xs : List α) :
    List.foldlM f b (x :: xs) = f b x >>= fun b2 => List.foldlM f b2 xs := rfl

/-- A successful xor fold over a row keeps the accumulator length. -/
theorem foldlM_accum_length (blocks : List (Option (List Nat))) (size bs : Int)
    (m : Nat) :
    ∀ (row : List Nat) (a r : List Nat),
      row.foldlM (accumStep blocks size bs m) a = .ok r → r.length = a.length := by
  intro row
  induction row with
  | nil =>
    intro a r h
    rw [except_foldlM_nil] at h
    cases h
    rfl
  | cons i rest ih =>
    intro a r h
    rw [except_foldlM_cons] at h
    cases hstep : accumStep blocks size bs m a i with
    | error e =>
      rw [hstep, except_bind_error] at h
      cases h
    | ok a1 =>
      rw [hstep, except_bind_ok] at h
      rw [ih a1 r h, accumStep_length hstep]

/-- The indices a successful missingOf reports are in range. -/
theorem missingOf_mem_lt {blocks : List (Option (List Nat))} :
    ∀ {row ms : List Nat}, missingOf blocks row = .ok ms →
      ∀ i ∈ ms, i < blocks.length := by
  intro row
  induction row with
  | nil =>
    intro ms h i hi
    cases h
    cases hi
  | cons j rest ih =>
    intro ms h i hi
    rw [missingOf] at h
    cases hget : blocks.get? j with
    | none =>
      rw [hget] at h
      cases h
    | some slot =>
      rw [hget] at h
      cases hrest : missingOf blocks rest with
      | error e =>
        rw [hrest] at h
        cases h
      | ok ms2 =>
        rw [hrest] at h
        cases h
        have hj : j < blocks.length := by
          by_contra hle
          rw [List.get?_eq_none.mpr (Nat.le_of_not_lt hle)] at hget
          cases hget
        by_cases hf : pyFalsyBytes slot
        · rw [if_pos hf] at hi
          rcases List.mem_cons.mp hi with rfl | hi2
          · exact hj
          · exact ih hrest i hi2
        · rw [if_neg hf] at hi
          exact ih hrest i hi

/-- getD recovers the value a successful get? found. -/
theorem getD_of_get? {l : List (Option (List Nat))} {i : Nat}
    {v : Option (List Nat)} (h : l.get? i = some v) : l.getD i none = v := by
  rw [List.get?_eq_getElem?] at h
  simp [List.getD_eq_getElem?_getD, h]

/-- Writing a slot of the correct unpadded size keeps SlotsGood. -/
theorem slotsGood_set {size bs : Int} {blocks : List (Option (List Nat))}
    (h : SlotsGood size bs blocks) {m : Nat} {b : List Nat}
    (hb : (b.length : Int) = unpaddedSize size bs m) :
    SlotsGood size bs (blocks.set m (some b)) := by
  refine ⟨by simpa using h.1, ?_⟩
  intro i c hc
  rw [getD_set_split] at hc
  split at hc
  · rename_i hcond
    cases hc
    rw [← hcond.1]
    exact hb
  · exact h.2 i c hc

/-- One FEC-row repair step keeps the data slots well-sized: the only
slot it writes receives the xor accumulator trimmed to exactly the
missing block's unpadded size. -/
theorem repairOne_slotsGood {size bs : Int} (hb : 0 < bs) (hs : 0 ≤ size)
    {fecBlocks : List (Option (List Nat))} (hfec : FecGood bs fecBlocks)
    (matrix : List (List Nat)) {st : RepairState}
    (hst : SlotsGood size bs st.blocks) (fecIndex : Nat) :
    SlotsGood size bs (repairOne size bs fecBlocks matrix st fecIndex).1.blocks := by
  simp only [repairOne]
  split
  · exact hst
  · rename_i row hrow
    split
    · exact hst
    · rename_i missing hmiss
      split
      · exact hst
      · rename_i hlen
        split
        · exact hst
        · rename_i m tail
          split
          · exact hst
          · exact hst
          · rename_i accum0 hacc0
            split
            · exact hst
            · rename_i accum hfold
              have hm : m < st.blocks.length :=
                missingOf_mem_lt hmiss m (List.mem_cons_self m tail)
              have hmi : (m : Int) < pyCeilDiv size bs := by
                rw [hst.1] at hm
                exact Int.lt_toNat.mp hm
              obtain ⟨hmu_pos, hmu_le⟩ := unpaddedSize_bounds hb hs hmi
              have haccum0 : ((accum0.length : Nat) : Int) = bs :=
                hfec fecIndex accum0 (getD_of_get? hacc0)
              have haccum : accum.length = accum0.length :=
                foldlM_accum_length _ _ _ _ row accum0 accum hfold
              have hlen1 : (pySliceTo accum (unpaddedSize size bs m)).length =
                  (unpaddedSize size bs m).toNat := by
                rw [pySliceTo_length _ _ (le_of_lt hmu_pos), haccum]
                have h2 : accum0.length = bs.toNat := by omega
                have h3 : (unpaddedSize size bs m).toNat ≤ bs.toNat :=
                  Int.toNat_le_toNat hmu_le
                omega
              have hlenEq : ((pySliceTo accum (unpaddedSize size bs m)).length : Int) =
                  unpaddedSize size bs m := by
                rw [hlen1]
                exact Int.toNat_of_nonneg (le_of_lt hmu_pos)
              exact slotsGood_set hst hlenEq

/-- One repair pass keeps the data slots well-sized. -/
theorem repairPass_slotsGood {size bs : Int} (hb : 0 < bs) (hs : 0 ≤ size)
    {fecBlocks : List (Option (List Nat))} (hfec : FecGood bs fecBlocks)
    (matrix : List (List Nat)) :
    ∀ (idxs : List Nat) (st : RepairState), SlotsGood size bs st.blocks →
      SlotsGood size bs (repairPass size bs fecBlocks matrix st idxs).1.blocks := by
  intro idxs
  induction idxs with
  | nil =>
    intro st hst
    exact hst
  | cons i rest ih =>
    intro st hst
    rcases hone : repairOne size bs fecBlocks matrix st i with ⟨st1, e?⟩
    have h1 : SlotsGood size bs st1.blocks := by
      have h2 := repairOne_slotsGood hb hs hfec matrix hst i
      rw [hone] at h2
      exact h2
    rw [repairPass, hone]
    cases e? with
    | some e => exact h1
    | none => exact ih st1 h1

/-- The whole repair loop keeps the data slots well-sized, for any
fuel. -/
theorem repairLoop_slotsGood {size bs : Int} (hb : 0 < bs) (hs : 0 ≤ size)
    {fecBlocks : List (Option (List Nat))} (hfec : FecGood bs fecBlocks)
    (matrix : List (List Nat)) :
    ∀ (fuel : Nat) (st : RepairState), SlotsGood size bs st.blocks →
      SlotsGood size bs (repairLoop fuel size bs fecBlocks matrix st).1.blocks := by
  intro fuel
  induction fuel with
  | zero =>
    intro st hst
    simp only [repairLoop]
    split
    · exact hst
    · exact hst
  | succ n ih =>
    intro st hst
    simp only [repairLoop]
    split
    · exact hst
    · split
      · rename_i st2 e hpass
        have h2 := repairPass_slotsGood hb hs hfec matrix
          ({ st with repaired := 0 } : RepairState).fecIndices
          { st with repaired := 0 } hst
        rw [hpass] at h2
        exact h2
      · rename_i st2 hpass
        have h2 := repairPass_slotsGood hb hs hfec matrix
          ({ st with repaired := 0 } : RepairState).fecIndices
          { st with repaired := 0 } hst
        rw [hpass] at h2
        split
        · exact h2
        · exact ih st2 h2

/-- Growing the FEC array with empty slots keeps FecGood. -/
theorem fecGood_grow {bs : Int} {fb : List (Option (List Nat))}
    (h : FecGood bs fb) (m : Nat) :
    FecGood bs (fb ++ List.replicate m none) := by
  intro i c hc
  rw [List.getD_eq_getElem?_getD, List.getElem?_append] at hc
  by_cases hi : i < fb.length
  · rw [if_pos hi, ← List.getD_eq_getElem?_getD] at hc
    exact h i c hc
  · rw [if_neg hi, List.getElem?_replicate] at hc
    split at hc
    · cases hc
    · cases hc

/-- Writing a block-size FEC block keeps FecGood. -/
theorem fecGood_set {bs : Int} {fb : List (Option (List Nat))}
    (h : FecGood bs fb) {n : Nat} {b : List Nat}
    (hb : (b.length : Int) = bs) :
    FecGood bs (fb.set n (some b)) := by
  intro i c hc
  rw [getD_set_split] at hc
  split at hc
  · cases hc
    exact hb
  · exact h i c hc

/-- push_block keeps the file invariant when the pushed block has the
slot's unpadded size. -/
theorem pushBlock_fileInv {f : File} {b : List Nat} {n : Nat} (h : FileInv f)
    (hb : (b.length : Int) = unpaddedSize f.size f.blockSize n) :
    FileInv (f.pushBlock b n).1 := by
  obtain ⟨hbs, hs, hslots, hfec⟩ := h
  rw [File.pushBlock]
  split
  · exact ⟨hbs, hs, hslots, hfec⟩
  · split
    · exact ⟨hbs, hs, slotsGood_set hslots hb, hfec⟩
    · exact ⟨hbs, hs, hslots, hfec⟩

/-- push_fec keeps the file invariant when the pushed FEC block holds
block_size bytes. -/
theorem pushFec_fileInv {f : File} {b : List Nat} {n : Nat} (h : FileInv f)
    (hb : (b.length : Int) = f.blockSize) :
    FileInv (File.pushFec f b n) := by
  obtain ⟨hbs, hs, hslots, hfec⟩ := h
  refine ⟨hbs, hs, hslots, ?_⟩
  have hfb : (File.pushFec f b n).fecBlocks =
      (if f.fecBlocks.length ≤ n then
         f.fecBlocks ++ List.replicate (n - f.fecBlocks.length + 1) none
       else f.fecBlocks).set n (some b) := rfl
  rw [hfb]
  split
  · exact fecGood_set (fecGood_grow hfec _) hb
  · exact fecGood_set hfec hb

/-- Inversion of fileInit: a fresh file has one empty slot per block
and no FEC blocks. -/
theorem fileInit_fields {xml : XmlElem} {f : File} (h : fileInit xml = .ok f) :
    f.blocks = List.replicate (pyCeilDiv f.size f.blockSize).toNat none ∧
    f.fecBlocks = [] := by
  rcases hid : xml.findChild "id" with _ | eid
  · simp [fileInit, hid, intOfText_none, except_bind_error] at h
  rcases hvid : intOfText (some eid) with e | vid
  · simp [fileInit, hid, hvid, except_bind_error] at h
  rcases hpath : xml.findChild "path" with _ | epath
  · simp [fileInit, hid, hvid, hpath, textOfChild_none, except_bind_error,
      except_bind_ok] at h
  rcases hhash : xml.findChild "hash" with _ | ehash
  · simp [fileInit, hid, hvid, hpath, hhash, textOfChild_none, textOfChild_some,
      except_bind_error, except_bind_ok] at h
  rcases hsize : xml.findChild "size" with _ | esize
  · simp [fileInit, hid, hvid, hpath, hhash, hsize, textOfChild_some,
      intOfText_none, except_bind_error, except_bind_ok] at h
  rcases hvsize : intOfText (some esize) with e | vsize
  · simp [fileInit, hid, hvid, hpath, hhash, hsize, hvsize, textOfChild_some,
      except_bind_error, except_bind_ok] at h
  rcases hbs : xml.findChild "block_size" with _ | ebs
  · simp [fileInit, hid, hvid, hpath, hhash, hsize, hvsize, hbs, textOfChild_some,
      intOfText_none, except_bind_error, except_bind_ok] at h
  rcases hvbs : intOfText (some ebs) with e | vbs
  · simp [fileInit, hid, hvid, hpath, hhash, hsize, hvsize, hbs, hvbs,
      textOfChild_some, except_bind_error, except_bind_ok] at h
  rw [fileInit] at h
  rw [hid] at h
  rw [hvid, except_bind_ok] at h
  rw [hpath, textOfChild_some, except_bind_ok] at h
  rw [hhash, textOfChild_some, except_bind_ok] at h
  rw [hsize] at h
  rw [hvsize, except_bind_ok] at h
  rw [hbs] at h
  rw [hvbs, except_bind_ok] at h
  split at h
  · cases h
  · cases h
    exact ⟨rfl, rfl⟩

/-- A freshly announced file with a sane descriptor satisfies the file
invariant: all slots are empty and there are ceil(size / block_size) of
them. -/
theorem fileInit_fileInv {xml : XmlElem} {f : File} (h : fileInit xml = .ok f)
    (hbs : 0 < f.blockSize) (hs : 0 ≤ f.size) : FileInv f := by
  obtain ⟨hbl, hfb⟩ := fileInit_fields h
  refine ⟨hbs, hs, ⟨by rw [hbl]; simp, ?_⟩, ?_⟩
  · intro i c hc
    rw [hbl, List.getD_eq_getElem?_getD, List.getElem?_replicate] at hc
    split at hc
    · cases hc
    · cases hc
  · intro i c hc
    rw [hfb] at hc
    cases hc

/-- File.assemble keeps the file invariant: the only data slots it
writes are installed by the repair loop at their unpadded size, and
size, block size and the FEC array are untouched. -/
theorem assemble_fileInv {fuel : Nat} {f : File} (h : FileInv f) :
    FileInv (File.assemble fuel f).1 := by
  obtain ⟨hbs, hs, hslots, hfec⟩ := h
  simp only [File.assemble]
  split
  · split
    · exact ⟨hbs, hs, hslots, hfec⟩
    · rename_i f1 matrix hbuild
      have hf1 : f1.size = f.size ∧ f1.blockSize = f.blockSize ∧
          f1.blocks = f.blocks ∧ f1.fecBlocks = f.fecBlocks := by
        split at hbuild
        · split at hbuild
          · cases hbuild
          · split at hbuild
            · cases hbuild
            · cases hbuild
              exact ⟨rfl, rfl, rfl, rfl⟩
        · cases hbuild
          exact ⟨rfl, rfl, rfl, rfl⟩
      obtain ⟨h1, h2, h3, h4⟩ := hf1
      have hslots1 : SlotsGood f1.size f1.blockSize f1.blocks := by
        rw [h1, h2, h3]
        exact hslots
      have hfec1 : FecGood f1.blockSize f1.fecBlocks := by
        rw [h2, h4]
        exact hfec
      have hbs1 : 0 < f1.blockSize := by
        rw [h2]
        exact hbs
      have hs1 : 0 ≤ f1.size := by
        rw [h1]
        exact hs
      have hloopInv := repairLoop_slotsGood hbs1 hs1 hfec1 matrix fuel
        { blocks := f1.blocks,
          fecIndices := (List.range f1.fecBlocks.length).filter
            (fun i => !pyFalsyBytes (f1.fecBlocks.getD i none)),
          repaired := 0,
          remain := (f1.blocks.count none : Nat) } hslots1
      split
      · rename_i st1 e hloop
        rw [hloop] at hloopInv
        exact ⟨hbs1, hs1, hloopInv, hfec1⟩
      · rename_i st1 hloop
        rw [hloop] at hloopInv
        exact ⟨hbs1, hs1, hloopInv, hfec1⟩
      · rename_i st1 hloop
        rw [hloop] at hloopInv
        split
        · exact ⟨hbs1, hs1, hloopInv, hfec1⟩
        · exact ⟨hbs1, hs1, hloopInv, hfec1⟩
  · split
    · exact ⟨hbs, hs, hslots, hfec⟩
    · split
      · exact ⟨hbs, hs, hslots, hfec⟩
      · exact ⟨hbs, hs, hslots, hfec⟩

/-- File.reconstruct keeps the file invariant: after assembly only the
length and hash checks run, which do not mutate the file. -/
theorem reconstruct_fileInv {fuel : Nat} {f : File} (h : FileInv f) :
    FileInv (File.reconstruct fuel f).1 := by
  have h2 := @assemble_fileInv fuel f h
  rw [File.reconstruct]
  rcases hasm : File.assemble fuel f with ⟨f1, res⟩
  rw [hasm] at h2
  cases res with
  | error e => exact h2
  | ok c =>
    cases c with
    | none => exact h2
    | some contents =>
      show FileInv (if (contents.length : Int) ≠ f1.size then (f1, Except.ok none)
            else if some (sha256hex contents) ≠ f1.hash then (f1, Except.ok none)
            else (f1, Except.ok (some contents))).1
      split
      · exact h2
      · split
        · exact h2
        · exact h2

/-- Every reachable state of a file in progress satisfies the file
invariant. -/
theorem goodReach_fileInv {f : File} (h : GoodReach f) : FileInv f := by
  induction h with
  | init xml f hinit hbs hs => exact fileInit_fileInv hinit hbs hs
  | pushBlock f b n hr hb ih => exact pushBlock_fileInv ih hb
  | pushFec f b n hr hb ih => exact pushFec_fileInv ih hb
  | reconstruct fuel f hr ih => exact reconstruct_fileInv ih

/-- C7 (amended): in every state reachable from a freshly announced
file (positive block size, non-negative size) by pushing data blocks
of their slot's unpadded size, pushing FEC blocks of block_size bytes,
and reconstruction attempts, every data slot i is either empty or
holds exactly min(block_size, size − block_size·i) bytes; and pushing
any block into a slot already holding a non-empty block leaves the
file unchanged.  (As stated for arbitrary pushed blocks the claim is
false: push_block performs no length check.) -/
theorem c7_slot_invariant_amended (f : File) (hf : GoodReach f) :
    (∀ i b, f.blocks.getD i none = some b →
       (b.length : Int) = unpaddedSize f.size f.blockSize i) ∧
    (∀ b b0 n, f.blocks.getD n none = some b0 → b0 ≠ [] →
       (f.pushBlock b n).1 = f) := by
  refine ⟨(goodReach_fileInv hf).2.2.1.2, ?_⟩
  intro b b0 n h0 hne
  have hget : f.blocks.get? n = some (some b0) := by
    rw [List.get?_eq_getElem?]
    cases hg : f.blocks[n]? with
    | none =>
      rw [List.getD_eq_getElem?_getD, hg] at h0
      cases h0
    | some v =>
      rw [List.getD_eq_getElem?_getD, hg] at h0
      simp at h0
      rw [h0]
  rw [File.pushBlock, hget]
  cases b0 with
  | nil => exact absurd rfl hne
  | cons x xs => rfl

/-- Witness for c7_slot_invariant_amended: a fresh two-slot file
(size 3, block size 2) after pushing the two-byte block [5, 5] into
slot 0 — the filled slot holds its unpadded size, and pushing [7] into
the full slot is discarded. -/
theorem c7_slot_invariant_witness :
    (([5, 5] : List Nat).length : Int) = unpaddedSize 3 2 0 ∧
    (File.pushBlock
        ⟨1, some "p", some "h", 3, 2, 2, none, none, [some [5, 5], none], []⟩
        [7] 0).1 =
      ⟨1, some "p", some "h", 3, 2, 2, none, none, [some [5, 5], none], []⟩ := by
  have h := c7_slot_invariant_amended
    (File.pushBlock ⟨1, some "p", some "h", 3, 2, 2, none, none,
        [none, none], []⟩ [5, 5] 0).1
    (GoodReach.pushBlock _ [5, 5] 0
      (GoodReach.init
        ⟨"file", none,
          [⟨"id", some "1", []⟩, ⟨"path", some "p", []⟩, ⟨"hash", some "h", []⟩,
           ⟨"size", some "3", []⟩, ⟨"block_size", some "2", []⟩]⟩
        _ (by decide) (by decide) (by decide))
      (by decide))
  exact ⟨h.1 0 [5, 5] (by decide), h.2 [7] [5, 5] 0 (by decide) (by decide)⟩

/-- Counterexample to C7 as stated: push_block performs no length
check, so a fresh one-slot file (size 2, block size 2) accepts a
three-byte block into slot 0, violating the claimed invariant
min(block_size, size − block_size·0) = 2 on a state reachable by a
single push_block call. -/
theorem c7_slot_invariant_counterexample :
    fileInit
        ⟨"file", none,
          [⟨"id", some "1", []⟩, ⟨"path", some "p", []⟩, ⟨"hash", some "h", []⟩,
           ⟨"size", some "2", []⟩, ⟨"block_size", some "2", []⟩]⟩ =
      .ok ⟨1, some "p", some "h", 2, 2, 1, none, none, [none], []⟩ ∧
    (File.pushBlock ⟨1, some "p", some "h", 2, 2, 1, none, none, [none], []⟩
        [1, 2, 3] 0).1.blocks.getD 0 none = some [1, 2, 3] ∧
    ¬ ((([1, 2, 3] : List Nat).length : Int) = unpaddedSize 2 2 0) := by
  exact ⟨by decide, by decide, by decide⟩
